import Mathlib

set_option maxRecDepth 8000

/-!
Shallow embedding of the `Currency` class of `src/source/source.ts`.

JavaScript numbers are modelled as exact rationals (`ℚ`); the two places
where the source deliberately interacts with number representation —
`Number.prototype.toFixed` and `Math.round` — are modelled by their
ECMAScript definitions on rationals: `toFixed` rounds the magnitude to the
requested number of decimal places with ties away from zero, `Math.round`
rounds to the nearest integer with ties toward positive infinity.
Strings are modelled as `List Char`.  The regular expressions of the source
are modelled by equivalent explicit list transformations, documented at
each definition.
-/

/-- The `pow` helper of the source (line 26): `Math.pow(10, p)`,
restricted to the natural-number precisions that occur. -/
def qpow (p : ℕ) : ℚ := (10 : ℚ) ^ p

/-- The `round` helper of the source (line 25): `Math.round(v)`.
ECMAScript `Math.round` returns the integer closest to `v`, with ties
rounded toward positive infinity, i.e. `⌊v + 1/2⌋`. -/
def jsRound (q : ℚ) : ℤ := ⌊q + 1 / 2⌋

/-- Truncation toward zero, as performed by ECMAScript `ToInt32` before
wrapping (the `~~` operator of the source). -/
def truncQ (q : ℚ) : ℤ := if q < 0 then -⌊-q⌋ else ⌊q⌋

/-- The wrap-around of ECMAScript `ToInt32` on an integer: reduce modulo
`2^32` into `[-2^31, 2^31)`. -/
def toInt32 (n : ℤ) : ℤ := (n + 2 ^ 31) % 2 ^ 32 - 2 ^ 31

/-- The integer of `p` decimal digits produced by
`Number.prototype.toFixed(p)`: ECMAScript picks the integer `n` with
`n / 10^p` closest to the magnitude of the argument, choosing the larger
`n` on ties, and prefixes the sign separately. -/
def jsToFixedInt (q : ℚ) (p : ℕ) : ℤ :=
  if q < 0 then -⌊-q * qpow p + 1 / 2⌋ else ⌊q * qpow p + 1 / 2⌋

/-- `Number(v.toFixed(4))` (source line 108): the value rounded to 4
decimal places.  The decimal string produced by `toFixed(4)` re-reads
exactly as the rounded rational. -/
def toFixed4 (q : ℚ) : ℚ := (jsToFixedInt q 4 : ℚ) / qpow 4

/-- The JavaScript remainder operator `a % b` on numbers: the remainder
carries the sign of the dividend, `a - b * trunc(a / b)`. -/
def jsRemQ (a b : ℚ) : ℚ := a - b * (truncQ (a / b) : ℚ)

/-- The `rounding` helper of the source (lines 27–30):
`round(value / increment) * increment`. -/
def rounding (value increment : ℚ) : ℚ := (jsRound (value / increment) : ℚ) * increment

/-- Configuration record, source type `defaultsTypes` (lines 1–13).
`symbol`, `separator` and `decimal` are one-character strings in every
configuration the source manipulates and are modelled as characters.
`increment = 0` encodes the absent (`undefined`, falsy) increment; the
`groups` regex field is determined by `useVedic` and is modelled by it. -/
structure Settings where
  symbol : Char
  separator : Char
  decimal : Char
  formatWithSymbol : Bool
  errorOnInvalid : Bool
  precision : ℕ
  pattern : List Char
  negativePattern : List Char
  increment : ℚ
  useVedic : Bool
deriving DecidableEq

/-- Partial options accepted by the constructor (`Partial<defaultsTypes>`):
absent fields are `none`. -/
structure POpts where
  symbol : Option Char := none
  separator : Option Char := none
  decimal : Option Char := none
  formatWithSymbol : Option Bool := none
  errorOnInvalid : Option Bool := none
  precision : Option ℕ := none
  pattern : Option (List Char) := none
  negativePattern : Option (List Char) := none
  increment : Option ℚ := none
  useVedic : Option Bool := none

/-- `Object.assign({}, defaults, opts)` (source line 54): every field the
options omit falls back to the module default of lines 15–24. -/
def mergeOpts (o : POpts) : Settings where
  symbol := o.symbol.getD '$'
  separator := o.separator.getD ','
  decimal := o.decimal.getD '.'
  formatWithSymbol := o.formatWithSymbol.getD false
  errorOnInvalid := o.errorOnInvalid.getD false
  precision := o.precision.getD 2
  pattern := o.pattern.getD ['!', '#']
  negativePattern := o.negativePattern.getD ['-', '!', '#']
  increment := o.increment.getD 0
  useVedic := o.useVedic.getD false

/-- The module-level `defaults` object (source lines 15–24); `increment`
and `useVedic` are absent there. -/
def defaults : Settings := mergeOpts {}

/-- A constructed `Currency` value: scaled integer, derived float value,
merged settings and the cached precision factor (source lines 38–44). -/
structure Currency where
  intValue : ℤ
  value : ℚ
  settings : Settings
  precisionFactor : ℚ
deriving DecidableEq

/-- The polymorphic input accepted by `parse`
(`number | string | Currency`); `invalid` stands for any other runtime
value (`undefined`, `null`, objects…), the branch of source lines 100–105. -/
inductive CInput where
  | num (q : ℚ)
  | str (s : List Char)
  | cur (c : Currency)
  | invalid
deriving DecidableEq

/-- Decimal digit character: `digitChar d` is the character for `d < 10`. -/
def digitChar (d : ℕ) : Char := Char.ofNat (48 + d)

/-- Numeric value of a digit character. -/
def digitVal (c : Char) : ℕ := c.toNat - 48

/-- Decimal digits of `n`, least significant first, empty for `0`. -/
def natDigitsLE (n : ℕ) : List Char :=
  if h : n = 0 then [] else digitChar (n % 10) :: natDigitsLE (n / 10)
termination_by n
decreasing_by exact Nat.div_lt_self (Nat.pos_of_ne_zero h) (by norm_num)

/-- Decimal digit string of `n`, most significant first (`"0"` for `0`),
as produced by ECMAScript number-to-string conversion for naturals. -/
def natDigits (n : ℕ) : List Char :=
  if n = 0 then ['0'] else (natDigitsLE n).reverse

/-- The last `p` decimal digits of `m`, zero-padded to length `p` (the
fractional part printed by `toFixed(p)` for scaled integer `m`, `p ≠ 0`). -/
def fracDigits (m p : ℕ) : List Char :=
  List.replicate (p - (natDigits (m % 10 ^ p)).length) '0' ++ natDigits (m % 10 ^ p)

/-- The full decimal string of `Number.prototype.toFixed(p)`: optional
sign, then the digits of the rounded scaled magnitude with a point
inserted `p` places from the right for `p ≠ 0` (values below the `10^21`
exponential cutoff of ECMAScript). -/
def toFixedStr (q : ℚ) (p : ℕ) : List Char :=
  (if q < 0 then ['-'] else []) ++
    natDigits ((⌊|q| * qpow p + 1 / 2⌋).toNat / 10 ^ p) ++
    (if p = 0 then [] else '.' :: fracDigits (⌊|q| * qpow p + 1 / 2⌋).toNat p)

/-- What the specification means by a plain decimal string with exactly
`p` fractional digits: an optional leading minus sign, a nonempty run of
digits and, when `p ≠ 0`, a decimal point followed by exactly `p` digits —
no symbol and no grouping separators. -/
def plainDecimal (p : ℕ) (s : List Char) : Prop :=
  ∃ sign ip fp, (sign = [] ∨ sign = ['-']) ∧
    s = sign ++ ip ++ (if p = 0 then [] else '.' :: fp) ∧
    ip ≠ [] ∧ (∀ c ∈ ip, c.isDigit = true) ∧
    fp.length = p ∧ (∀ c ∈ fp, c.isDigit = true)

/-- Value of a digit string read most-significant-first. -/
def digitsVal (l : List Char) : ℕ := l.foldl (fun a c => 10 * a + digitVal c) 0

/-- Split at the first occurrence of `c`: `some (before, after)`, or
`none` when `c` does not occur. -/
def splitFirst (c : Char) : List Char → Option (List Char × List Char)
  | [] => none
  | x :: xs =>
    if x = c then some ([], xs)
    else (splitFirst c xs).map (fun pr => (x :: pr.1, pr.2))

/-- Split at the last occurrence of `c`. -/
def splitLast (c : Char) (s : List Char) : Option (List Char × List Char) :=
  (splitFirst c s.reverse).map (fun pr => (pr.2.reverse, pr.1.reverse))

/-- `value.replace(/\((.*)\)/, '-$1')` (source line 94): the leftmost
match of the regex runs from the first `'('` that still has a `')'` after
it to the last `')'` of the string; the parentheses are replaced by a
single leading `'-'` of the enclosed text. -/
def parenReplace (s : List Char) : List Char :=
  match splitFirst '(' s with
  | none => s
  | some (pre, rest) =>
    match splitLast ')' rest with
    | none => s
    | some (mid, post) => pre ++ '-' :: (mid ++ post)

/-- Character class kept by `value.replace(new RegExp('[^-\\d' + decimal
+ ']', 'g'), '')` (source lines 91–95): digits, `'-'` and the configured
decimal character survive. -/
def stripKeep (dec : Char) (c : Char) : Bool := c.isDigit || c == '-' || c == dec

/-- The string pipeline of the `string` branch of `parse` (lines 90–98):
rewrite parenthesised negatives, strip foreign characters, rewrite the
configured decimal character to `'.'`. -/
def parseStr (dec : Char) (s : List Char) : List Char :=
  ((parenReplace s).filter (stripKeep dec)).map (fun c => if c = dec then '.' else c)

/-- ECMAScript `Number(string)` on the unsigned part: a run of digits, an
optional point and optional further digits, at least one digit in total;
anything else is `NaN` (`none`). -/
def jsNumberPos (t : List Char) : Option ℚ :=
  if t.dropWhile Char.isDigit = [] then
    if t.takeWhile Char.isDigit = [] then none
    else some (digitsVal (t.takeWhile Char.isDigit))
  else if (t.dropWhile Char.isDigit).headD ' ' = '.' ∧
      (t.dropWhile Char.isDigit).tail.all Char.isDigit ∧
      (t.takeWhile Char.isDigit ≠ [] ∨ (t.dropWhile Char.isDigit).tail ≠ []) then
    some ((digitsVal (t.takeWhile Char.isDigit) : ℚ) +
      (digitsVal (t.dropWhile Char.isDigit).tail : ℚ) /
        qpow (t.dropWhile Char.isDigit).tail.length)
  else none

/-- ECMAScript `Number(string)` restricted to the alphabet left after the
strip of `parseStr` (digits, `'-'`, `'.'`): the empty string reads as `0`,
one optional leading `'-'` negates, `NaN` is `none`. -/
def jsNumber (s : List Char) : Option ℚ :=
  if s = [] then some 0
  else if s.headD ' ' = '-' then (jsNumberPos s.tail).map (fun q => -q)
  else jsNumberPos s

/-- First-occurrence character replacement, `String.prototype.replace`
with a one-character pattern (used for `'!'` and `'#'` of the format
patterns). -/
def replaceFirst (t : Char) (r : List Char) : List Char → List Char
  | [] => []
  | c :: cs => if c = t then r ++ cs else c :: replaceFirst t r cs

/-- Removal of one leading minus sign: the replace with the
leading-minus regex applied to `this + ''` at source line 255. -/
def dropLeadingMinus (s : List Char) : List Char :=
  if s.headD ' ' = '-' then s.tail else s

/-- `String.prototype.split('.')` (source line 255). -/
def splitOnChar (c : Char) : List Char → List (List Char)
  | [] => [[]]
  | x :: xs =>
    if x = c then [] :: splitOnChar c xs
    else
      match splitOnChar c xs with
      | [] => [[x]]
      | h :: t => (x :: h) :: t

/-- `groupRegex = /(\d)(?=(\d{3})+\b)/g` (source line 43) applied as
`dollars.replace(groups, '$1' + separator)`: a separator lands after every
digit that is followed by a positive multiple of three digits. -/
def groupStdGo (sep : Char) : List Char → List Char
  | [] => []
  | c :: cs =>
    c :: (if cs ≠ [] ∧ cs.length % 3 = 0 then sep :: groupStdGo sep cs else groupStdGo sep cs)

/-- `vedicRegex = /(\d)(?=(\d\d)+\d\b)/g` (source line 44): a separator
lands after every digit that is followed by an odd number (at least 3) of
digits. -/
def groupVedicGo (sep : Char) : List Char → List Char
  | [] => []
  | c :: cs =>
    c :: (if 3 ≤ cs.length ∧ cs.length % 2 = 1 then sep :: groupVedicGo sep cs else groupVedicGo sep cs)

namespace Currency

/-- The value computed by the branch dispatch of `parse` (source lines
82–105) before the post-processing of lines 107–110; the `invalid` branch
contributes `0` (the throwing case is isolated in `Currency.parse`).
`v = v || 0` of line 99 and the `NaN` propagation of `Number` are folded
into `getD 0`, which agrees on every input. -/
def parseRaw : CInput → Settings → ℚ
  | CInput.cur c, s => c.value * qpow s.precision
  | CInput.num q, s => q * qpow s.precision
  | CInput.str t, s => ((jsNumber (parseStr s.decimal t)).getD 0) * qpow s.precision
  | CInput.invalid, _ => 0

/-- The value returned by `parse` (lines 107–110): round the scaled value
to 4 decimal places, then to an integer when `useRounding` is set. -/
def parseVal (i : CInput) (s : Settings) (useRounding : Bool) : ℚ :=
  let v := toFixed4 (parseRaw i s)
  if useRounding then (jsRound v : ℚ) else v

/-- The integer produced by `parse` with `useRounding = true`. -/
def parseValR (i : CInput) (s : Settings) : ℤ := jsRound (toFixed4 (parseRaw i s))

/-- `parse` with its error behaviour (lines 100–105): inputs of
unrecognised shape throw `'Invalid Input'` exactly when `errorOnInvalid`
is configured. -/
def parse (i : CInput) (s : Settings) (useRounding : Bool) : Except String ℚ :=
  if i = CInput.invalid ∧ s.errorOnInvalid then Except.error "Invalid Input"
  else Except.ok (parseVal i s useRounding)

/-- `settings.increment = settings.increment || 1 / precision`
(source line 62) together with the `groups` selection of lines 66–70 (the
latter is already carried by `useVedic`). -/
def constructorMerge (s : Settings) : Settings :=
  { s with increment := if s.increment = 0 then 1 / qpow s.precision else s.increment }

/-- The constructor body (source lines 46–75) on already-merged settings:
parse the input, store the scaled integer and the derived float value,
cache the precision factor, set the default increment.  Internal call
sites (`new Currency(x, _settings)`) pass a full settings object, for
which `Object.assign({}, defaults, settings)` is the identity. -/
def mkC (i : CInput) (s : Settings) : Currency :=
  let precision := qpow s.precision
  let v := parseValR i s
  { intValue := v
    value := (v : ℚ) / precision
    settings := constructorMerge s
    precisionFactor := precision }

/-- User-facing construction `new Currency(value, opts)`: merge the
partial options over the module defaults, then run the constructor. -/
def mkUser (i : CInput) (o : POpts) : Currency := mkC i (mergeOpts o)

/-- `add` (source lines 118–132).  When the receiver's scaled integer,
settings and precision factor are all truthy the operand is parsed with
the receiver's settings and the sum is rescaled; otherwise the fallback of
lines 128–131 parses the operand against the module `defaults` and divides
by `defaults.precision` — the precision count 2, not the factor. -/
def add (c : Currency) (i : CInput) : Currency :=
  if c.intValue ≠ 0 ∧ c.precisionFactor ≠ 0 then
    mkC (CInput.num (((c.intValue : ℚ) + (parseValR i c.settings : ℚ)) / c.precisionFactor))
      c.settings
  else
    mkC (CInput.num ((parseValR i defaults : ℚ) / (defaults.precision : ℚ))) c.settings

/-- `subtract` (source lines 139–153), mirror image of `add`. -/
def subtract (c : Currency) (i : CInput) : Currency :=
  if c.intValue ≠ 0 ∧ c.precisionFactor ≠ 0 then
    mkC (CInput.num (((c.intValue : ℚ) - (parseValR i c.settings : ℚ)) / c.precisionFactor))
      c.settings
  else
    mkC (CInput.num ((parseValR i defaults : ℚ) / (defaults.precision : ℚ))) c.settings

/-- `multiply` (source lines 160–169): no result when the receiver's
scaled integer is falsy; otherwise multiply the scaled integer by the raw
number and rescale by `pow(settings.precision)`. -/
def multiply (c : Currency) (x : ℚ) : Option Currency :=
  if c.intValue ≠ 0 then
    some (mkC (CInput.num (((c.intValue : ℚ) * x) / qpow c.settings.precision)) c.settings)
  else none

/-- `divide` (source lines 176–185): no result when the receiver's scaled
integer is falsy; otherwise divide the scaled integer by the operand
parsed without final integer rounding. -/
def divide (c : Currency) (i : CInput) : Option Currency :=
  if c.intValue ≠ 0 then
    some (mkC (CInput.num ((c.intValue : ℚ) / parseVal i c.settings false)) c.settings)
  else none

/-- The loop of `distribute` (source lines 201–212): `count` iterations;
each item is constructed from `split` smallest units, and while the penny
counter is still positive one extra smallest unit is added (non-negative
receiver) or subtracted (negative receiver) through `add`/`subtract`. -/
def distLoop (c : Currency) (split : ℤ) : ℕ → ℤ → List Currency
  | 0, _ => []
  | n + 1, pennies =>
    let item0 := mkC (CInput.num ((split : ℚ) / c.precisionFactor)) c.settings
    let item :=
      if 0 < pennies then
        if 0 ≤ c.intValue then add item0 (CInput.num (1 / c.precisionFactor))
        else subtract item0 (CInput.num (1 / c.precisionFactor))
      else item0
    item :: distLoop c split n (pennies - 1)

/-- `distribute` (source lines 193–216): undefined when the receiver's
scaled integer is falsy; otherwise split into `floor` (non-negative) or
`ceil` (negative) shares with `|intValue - split*count|` leftover pennies.
A negative `count` makes the source loop run forever, so the model takes a
natural `count`; `count = 0` skips the loop and yields the empty list. -/
def distribute (c : Currency) (count : ℕ) : Option (List Currency) :=
  if c.intValue ≠ 0 ∧ c.precisionFactor ≠ 0 then
    let split : ℤ :=
      if 0 ≤ c.intValue then ⌊(c.intValue : ℚ) / (count : ℚ)⌋
      else ⌈(c.intValue : ℚ) / (count : ℚ)⌉
    some (distLoop c split count |c.intValue - split * count|)
  else none

/-- `dollars` (source lines 222–226): `~~value` when `value` is truthy,
undefined otherwise. -/
def dollars (c : Currency) : Option ℤ :=
  if c.value ≠ 0 then some (toInt32 (truncQ c.value)) else none

/-- `cents` (source lines 232–238): `~~(intValue % _precision)` when the
scaled integer and precision factor are truthy, undefined otherwise. -/
def cents (c : Currency) : Option ℤ :=
  if c.intValue ≠ 0 ∧ c.precisionFactor ≠ 0 then
    some (toInt32 (truncQ (jsRemQ (c.intValue : ℚ) c.precisionFactor)))
  else none

/-- `toString` (source lines 278–286): when the scaled integer, the
configured increment and the precision factor are all truthy, round
`intValue / _precision` to the increment and print with
`toFixed(precision)`; undefined otherwise. -/
def toString (c : Currency) : Option (List Char) :=
  if c.intValue ≠ 0 ∧ c.settings.increment ≠ 0 ∧ c.precisionFactor ≠ 0 then
    some (toFixedStr (rounding ((c.intValue : ℚ) / c.precisionFactor) c.settings.increment)
      c.settings.precision)
  else none

/-- The grouping regex replacement selected by `useVedic`
(source lines 66–70 and 267). -/
def groupApply (s : Settings) (ds : List Char) : List Char :=
  if s.useVedic then groupVedicGo s.separator ds else groupStdGo s.separator ds

/-- `format` (source lines 245–272): stringify the receiver (`this + ''`
is the string `"undefined"` when `toString` yields nothing), strip one
leading `'-'`, split at `'.'`; when `value` is truthy substitute symbol
and grouped number into the pattern selected by the sign, else undefined. -/
def format (c : Currency) (useSymbol : Option Bool) : Option (List Char) :=
  if c.value ≠ 0 then
    some (replaceFirst '#'
      (groupApply c.settings
        ((splitOnChar '.'
          (dropLeadingMinus ((toString c).getD (String.toList "undefined")))).headD []) ++
        ((splitOnChar '.'
            (dropLeadingMinus ((toString c).getD (String.toList "undefined")))).get? 1).elim
          [] (fun cs => c.settings.decimal :: cs))
      (replaceFirst '!'
        (if useSymbol.getD c.settings.formatWithSymbol then [c.settings.symbol] else [])
        (if 0 ≤ c.value then c.settings.pattern else c.settings.negativePattern)))
  else none

/-- `toJSON` (source lines 292–294): the plain float value. -/
def toJSON (c : Currency) : ℚ := c.value

end Currency

/-- The rounding `round(x, precision)` that the specification's additivity
property refers to, modelled from the spec's words: round `x` to
`precision` fractional digits. -/
def specRound (q : ℚ) (p : ℕ) : ℚ := (jsRound (q * qpow p) : ℚ) / qpow p

/-! Basic evaluation lemmas for the numeric primitives. -/

theorem qpow_pos (p : ℕ) : 0 < qpow p := by
  unfold qpow; positivity

theorem qpow_ne_zero (p : ℕ) : qpow p ≠ 0 := ne_of_gt (qpow_pos p)

theorem floor_add_half_intCast (z : ℤ) : ⌊(z : ℚ) + 1 / 2⌋ = z := by
  rw [add_comm, Int.floor_add_int]
  norm_num

theorem jsRound_intCast (z : ℤ) : jsRound (z : ℚ) = z := by
  unfold jsRound; exact floor_add_half_intCast z

theorem jsRound_le (q : ℚ) : (jsRound q : ℚ) ≤ q + 1 / 2 := by
  unfold jsRound; exact Int.floor_le _

theorem lt_jsRound (q : ℚ) : q - 1 / 2 < (jsRound q : ℚ) := by
  unfold jsRound
  have := Int.lt_floor_add_one (q + 1 / 2)
  push_cast at this ⊢
  linarith

theorem toFixed4_exact (q : ℚ) (z : ℤ) (h : q * qpow 4 = (z : ℚ)) : toFixed4 q = q := by
  have h4 : qpow 4 ≠ 0 := qpow_ne_zero 4
  unfold toFixed4 jsToFixedInt
  by_cases hq : q < 0
  · rw [if_pos hq]
    have h2 : -q * qpow 4 = ((-z : ℤ) : ℚ) := by push_cast; linarith
    rw [h2, floor_add_half_intCast]
    push_cast
    field_simp
    linarith
  · rw [if_neg hq, h, floor_add_half_intCast]
    field_simp
    linarith

theorem toFixed4_intCast (z : ℤ) : toFixed4 (z : ℚ) = (z : ℚ) := by
  refine toFixed4_exact _ (z * 10 ^ 4) ?_
  push_cast [qpow]
  ring

namespace Currency

theorem parseRaw_num (q : ℚ) (s : Settings) : parseRaw (CInput.num q) s = q * qpow s.precision := rfl

theorem parseRaw_cur (c : Currency) (s : Settings) :
    parseRaw (CInput.cur c) s = c.value * qpow s.precision := rfl

theorem parseValR_of_raw (i : CInput) (s : Settings) (z : ℤ)
    (h : parseRaw i s = (z : ℚ)) : parseValR i s = z := by
  unfold parseValR
  rw [h, toFixed4_intCast, jsRound_intCast]

theorem parse_exact (m : ℤ) (s : Settings) :
    parseValR (CInput.num ((m : ℚ) / qpow s.precision)) s = m := by
  refine parseValR_of_raw _ _ _ ?_
  rw [parseRaw_num]
  exact div_mul_cancel₀ _ (qpow_ne_zero _)

theorem mkC_intValue (i : CInput) (s : Settings) : (mkC i s).intValue = parseValR i s := rfl

theorem mkC_value (i : CInput) (s : Settings) :
    (mkC i s).value = (parseValR i s : ℚ) / qpow s.precision := rfl

theorem mkC_settings (i : CInput) (s : Settings) : (mkC i s).settings = constructorMerge s := rfl

theorem mkC_precisionFactor (i : CInput) (s : Settings) :
    (mkC i s).precisionFactor = qpow s.precision := rfl

theorem constructorMerge_precision (s : Settings) :
    (constructorMerge s).precision = s.precision := rfl

theorem parseVal_true (i : CInput) (s : Settings) :
    parseVal i s true = (parseValR i s : ℚ) := rfl

theorem parseVal_false (i : CInput) (s : Settings) :
    parseVal i s false = toFixed4 (parseRaw i s) := rfl

theorem parseVal_invalid (s : Settings) (u : Bool) : parseVal CInput.invalid s u = 0 := by
  have hraw : parseRaw CInput.invalid s = ((0 : ℤ) : ℚ) := rfl
  cases u
  · rw [parseVal_false, hraw, toFixed4_intCast]
    norm_num
  · rw [parseVal_true, parseValR_of_raw _ _ 0 hraw]
    norm_num

end Currency

/-- C10: constructing a Money Value from the number `1.005` with the
default configuration (precision 2) yields the scaled integer `101`: the
scaled value `100.5` survives the 4-decimal pre-rounding step unchanged
and then rounds up to `101`.  (In the binary-float source the same `101`
arises because `toFixed(4)` clears the artifact `100.49999999999999`; the
exact-rational model gives the identical result.) -/
theorem C10_construct_1005 :
    (Currency.mkUser (CInput.num (1005 / 1000)) {}).intValue = 101 := by
  show Currency.parseValR (CInput.num (1005 / 1000)) (mergeOpts {}) = 101
  unfold Currency.parseValR
  rw [Currency.parseRaw_num]
  have h1 : (1005 / 1000 : ℚ) * qpow (mergeOpts {}).precision = 201 / 2 := by
    show (1005 / 1000 : ℚ) * qpow 2 = 201 / 2
    norm_num [qpow]
  rw [h1, toFixed4_exact (201 / 2 : ℚ) 1005000 (by norm_num [qpow])]
  unfold jsRound
  norm_num

/-- C4 counterexample: for the accepted numeric input `-1.005` with the
default configuration the 4-decimal-rounded scaled value is exactly
`-100.5`, a tie, and the final integer is `-100` — toward zero — whereas
round-half-away-from-zero would give `-101`.  This refutes the claim that
a scaled value ending in exactly `.5` moves away from zero for negative
inputs. -/
theorem C4_counterexample :
    Currency.parseVal (CInput.num (-(1005 / 1000))) defaults false = -(201 / 2) ∧
    Currency.parseValR (CInput.num (-(1005 / 1000))) defaults = -100 ∧
    (-100 : ℤ) ≠ -101 := by
  have hraw : Currency.parseRaw (CInput.num (-(1005 / 1000))) defaults = -(201 / 2) := by
    rw [Currency.parseRaw_num]
    show (-(1005 / 1000) : ℚ) * qpow 2 = -(201 / 2)
    norm_num [qpow]
  have htf : toFixed4 (-(201 / 2) : ℚ) = -(201 / 2) :=
    toFixed4_exact _ (-1005000) (by norm_num [qpow])
  refine ⟨?_, ?_, by decide⟩
  · rw [Currency.parseVal_false, hraw, htf]
  · unfold Currency.parseValR
    rw [hraw, htf]
    unfold jsRound
    norm_num

/-- C4 amended: for every accepted input, `parse` with `useRounding=true`
first rounds the scaled value to 4 decimal places (`toFixed4` of the raw
scaled value) and then rounds to the nearest integer with ties toward
positive infinity: the result is the unique integer in the half-open
interval `(v - 1/2, v + 1/2]` around the 4-decimal value `v` — so a value
ending in exactly `.5` rounds up, away from zero for positive inputs but
toward zero for negative inputs. -/
theorem C4_round_half_up (i : CInput) (s : Settings) :
    Currency.parseVal i s true = (Currency.parseValR i s : ℚ) ∧
    Currency.parseVal i s false = toFixed4 (Currency.parseRaw i s) ∧
    Currency.parseVal i s false - 1 / 2 < (Currency.parseValR i s : ℚ) ∧
    (Currency.parseValR i s : ℚ) ≤ Currency.parseVal i s false + 1 / 2 := by
  refine ⟨rfl, rfl, ?_, ?_⟩
  · rw [Currency.parseVal_false]
    exact lt_jsRound _
  · rw [Currency.parseVal_false]
    exact jsRound_le _

/-- C5: whenever the receiver's scaled integer is zero (JavaScript falsy),
`multiply`, `divide` and `distribute` all yield no result. -/
theorem C5_falsy_guard (c : Currency) (x : ℚ) (i : CInput) (n : ℕ) (h : c.intValue = 0) :
    Currency.multiply c x = none ∧ Currency.divide c i = none ∧
    Currency.distribute c n = none := by
  unfold Currency.multiply Currency.divide Currency.distribute
  rw [h]
  simp

/-- C5 witness: the guard fires on the zero-valued default-configured
Money Value. -/
theorem C5_falsy_guard_witness :
    (Currency.mkUser (CInput.num 0) {}).intValue = 0 ∧
    Currency.multiply (Currency.mkUser (CInput.num 0) {}) 5 = none ∧
    Currency.divide (Currency.mkUser (CInput.num 0) {}) (CInput.num 2) = none ∧
    Currency.distribute (Currency.mkUser (CInput.num 0) {}) 3 = none := by
  have h0 : (Currency.mkUser (CInput.num 0) {}).intValue = 0 := by
    show Currency.parseValR (CInput.num 0) (mergeOpts {}) = 0
    refine Currency.parseValR_of_raw _ _ 0 ?_
    rw [Currency.parseRaw_num]
    norm_num
  obtain ⟨a, b, c⟩ := C5_falsy_guard _ 5 (CInput.num 2) 3 h0
  exact ⟨h0, a, b, c⟩

/-- C3 counterexample: `new Currency(-500, {precision: 2})` has value
`-500`, so `dollars()` returns `-500`, not the claimed `-5`. -/
theorem C3_counterexample :
    Currency.dollars (Currency.mkUser (CInput.num (-500)) {precision := some 2}) =
      some (-500) ∧
    Currency.dollars (Currency.mkUser (CInput.num (-500)) {precision := some 2}) ≠
      some (-5) := by
  have hv : (Currency.mkUser (CInput.num (-500)) {precision := some 2}).value = -500 := by
    show (Currency.parseValR (CInput.num (-500)) (mergeOpts {precision := some 2}) : ℚ) /
      qpow (mergeOpts {precision := some 2}).precision = -500
    rw [Currency.parseValR_of_raw _ _ (-50000)
      (by rw [Currency.parseRaw_num]; show (-500 : ℚ) * qpow 2 = _; norm_num [qpow])]
    show ((-50000 : ℤ) : ℚ) / qpow 2 = -500
    norm_num [qpow]
  have hd : Currency.dollars (Currency.mkUser (CInput.num (-500)) {precision := some 2}) =
      some (-500) := by
    unfold Currency.dollars
    rw [hv, if_pos (by norm_num)]
    have ht : truncQ (-500 : ℚ) = -500 := by
      unfold truncQ
      rw [if_pos (by norm_num)]
      norm_num
    rw [ht]
    decide
  exact ⟨hd, by rw [hd]; decide⟩

/-- C3 amended: `new Currency(-500, {precision: 2})` yields
`dollars() = -500` (the truncated whole-unit part of the value `-500`)
and `cents() = 0`. -/
theorem C3_dollars_cents :
    Currency.dollars (Currency.mkUser (CInput.num (-500)) {precision := some 2}) =
      some (-500) ∧
    Currency.cents (Currency.mkUser (CInput.num (-500)) {precision := some 2}) =
      some 0 := by
  have hint : (Currency.mkUser (CInput.num (-500)) {precision := some 2}).intValue =
      -50000 := by
    show Currency.parseValR (CInput.num (-500)) (mergeOpts {precision := some 2}) = -50000
    exact Currency.parseValR_of_raw _ _ (-50000)
      (by rw [Currency.parseRaw_num]; show (-500 : ℚ) * qpow 2 = _; norm_num [qpow])
  have hv : (Currency.mkUser (CInput.num (-500)) {precision := some 2}).value = -500 := by
    show (Currency.parseValR (CInput.num (-500)) (mergeOpts {precision := some 2}) : ℚ) /
      qpow (mergeOpts {precision := some 2}).precision = -500
    rw [show Currency.parseValR (CInput.num (-500)) (mergeOpts {precision := some 2}) =
      -50000 from hint]
    show ((-50000 : ℤ) : ℚ) / qpow 2 = -500
    norm_num [qpow]
  constructor
  · unfold Currency.dollars
    rw [hv, if_pos (by norm_num)]
    have ht : truncQ (-500 : ℚ) = -500 := by
      unfold truncQ
      rw [if_pos (by norm_num)]
      norm_num
    rw [ht]
    decide
  · unfold Currency.cents
    have hpf : (Currency.mkUser (CInput.num (-500)) {precision := some 2}).precisionFactor =
        qpow 2 := rfl
    rw [hint, hpf, if_pos ⟨by decide, qpow_ne_zero 2⟩]
    have hr : jsRemQ ((-50000 : ℤ) : ℚ) (qpow 2) = 0 := by
      unfold jsRemQ truncQ
      rw [if_pos (by norm_num [qpow])]
      norm_num [qpow]
    rw [hr]
    have ht : truncQ (0 : ℚ) = 0 := by
      unfold truncQ
      rw [if_neg (by norm_num)]
      norm_num
    rw [ht]
    decide

/-- Helper: with a falsy (zero) scaled integer the receiver of `add`
takes the fallback branch of source lines 128–131. -/
theorem add_fallback (c : Currency) (i : CInput) (h : c.intValue = 0) :
    Currency.add c i =
      Currency.mkC
        (CInput.num ((Currency.parseValR i defaults : ℚ) / (defaults.precision : ℚ)))
        c.settings := by
  unfold Currency.add
  rw [h, if_neg (by simp)]

/-- Helper: with a falsy (zero) scaled integer the receiver of `subtract`
takes the fallback branch of source lines 149–152. -/
theorem subtract_fallback (c : Currency) (i : CInput) (h : c.intValue = 0) :
    Currency.subtract c i =
      Currency.mkC
        (CInput.num ((Currency.parseValR i defaults : ℚ) / (defaults.precision : ℚ)))
        c.settings := by
  unfold Currency.subtract
  rw [h, if_neg (by simp)]

/-- C7: on a receiver whose scaled integer is falsy, `add` and `subtract`
still return a new Money Value, built from the operand parsed against the
module defaults and divided by the default precision count 2 instead of
the scale factor `10^2`; for a default-configured zero receiver and an
integer operand `k` the result's value is therefore `50 * k` (in
particular `MoneyValue(0).add(1)` has value `50`). -/
theorem C7_zero_receiver_fallback (k : ℤ) :
    (Currency.add (Currency.mkUser (CInput.num 0) {}) (CInput.num (k : ℚ))).value =
      50 * (k : ℚ) ∧
    (Currency.subtract (Currency.mkUser (CInput.num 0) {}) (CInput.num (k : ℚ))).value =
      50 * (k : ℚ) := by
  have h0 : (Currency.mkUser (CInput.num 0) {}).intValue = 0 := by
    show Currency.parseValR (CInput.num 0) (mergeOpts {}) = 0
    exact Currency.parseValR_of_raw _ _ 0 (by rw [Currency.parseRaw_num]; norm_num)
  have hk : Currency.parseValR (CInput.num (k : ℚ)) defaults = 100 * k := by
    refine Currency.parseValR_of_raw _ _ (100 * k) ?_
    rw [Currency.parseRaw_num]
    show (k : ℚ) * qpow 2 = _
    push_cast [qpow]
    ring
  have hval : (Currency.mkC
      (CInput.num ((Currency.parseValR (CInput.num (k : ℚ)) defaults : ℚ) /
        (defaults.precision : ℚ)))
      (Currency.mkUser (CInput.num 0) {}).settings).value = 50 * (k : ℚ) := by
    rw [Currency.mkC_value, hk]
    have hp : ((Currency.mkUser (CInput.num 0) ({} : POpts)).settings).precision = 2 := rfl
    rw [hp]
    have harg : ((100 * k : ℤ) : ℚ) / (defaults.precision : ℚ) = ((50 * k : ℤ) : ℚ) := by
      show ((100 * k : ℤ) : ℚ) / ((2 : ℕ) : ℚ) = _
      push_cast
      ring
    rw [harg]
    have h2 : Currency.parseValR (CInput.num ((50 * k : ℤ) : ℚ))
        (Currency.mkUser (CInput.num 0) ({} : POpts)).settings = 5000 * k := by
      refine Currency.parseValR_of_raw _ _ (5000 * k) ?_
      rw [Currency.parseRaw_num]
      show ((50 * k : ℤ) : ℚ) * qpow 2 = _
      push_cast [qpow]
      ring
    rw [h2]
    push_cast [qpow]
    ring
  refine ⟨?_, ?_⟩
  · rw [add_fallback _ _ h0]
    exact hval
  · rw [subtract_fallback _ _ h0]
    exact hval

/-- C8: `parse` raises the `'Invalid Input'` error exactly when the input
is of unrecognised shape and `errorOnInvalid` is enabled; with the flag
disabled such input yields `0`, and recognised inputs (numbers, strings,
Money Values) never raise. -/
theorem C8_invalid_input (i : CInput) (s : Settings) (u : Bool) :
    ((∃ msg, Currency.parse i s u = Except.error msg) ↔
      i = CInput.invalid ∧ s.errorOnInvalid = true) ∧
    (i = CInput.invalid → s.errorOnInvalid = false →
      Currency.parse i s u = Except.ok 0) := by
  constructor
  · unfold Currency.parse
    by_cases h : i = CInput.invalid ∧ s.errorOnInvalid
    · rw [if_pos h]
      simp only [h.1, h.2, and_self, iff_true]
      exact ⟨"Invalid Input", rfl⟩
    · rw [if_neg h]
      constructor
      · rintro ⟨msg, hmsg⟩
        exact absurd hmsg (by simp)
      · intro hr
        exact absurd ⟨hr.1, by rw [hr.2]⟩ h
  · intro hi hf
    unfold Currency.parse
    rw [if_neg (by rw [hf]; simp)]
    rw [hi, Currency.parseVal_invalid]

/-- C8 witness: the invalid input yields `ok 0` under the defaults and an
error when `errorOnInvalid` is configured. -/
theorem C8_invalid_input_witness :
    Currency.parse CInput.invalid defaults true = Except.ok 0 ∧
    ∃ msg, Currency.parse CInput.invalid (mergeOpts {errorOnInvalid := some true}) true =
      Except.error msg := by
  constructor
  · exact (C8_invalid_input CInput.invalid defaults true).2 rfl rfl
  · exact ((C8_invalid_input CInput.invalid (mergeOpts {errorOnInvalid := some true})
      true).1).mpr ⟨rfl, rfl⟩


/-- Helper: construction facts as rewriting equations at the `mkUser`
level. -/
theorem mkUser_intValue (i : CInput) (o : POpts) :
    (Currency.mkUser i o).intValue = Currency.parseValR i (mergeOpts o) := rfl

theorem mkUser_value (i : CInput) (o : POpts) :
    (Currency.mkUser i o).value =
      (Currency.parseValR i (mergeOpts o) : ℚ) / qpow (mergeOpts o).precision := rfl

theorem mkUser_settings (i : CInput) (o : POpts) :
    (Currency.mkUser i o).settings = Currency.constructorMerge (mergeOpts o) := rfl

theorem mkUser_precisionFactor (i : CInput) (o : POpts) :
    (Currency.mkUser i o).precisionFactor = qpow (mergeOpts o).precision := rfl

/-- C2 counterexample: `0` and `1` are both exactly representable at the
default precision 2, but adding the Money Value `1` to the Money Value `0`
yields value `50` (the zero receiver takes the fallback branch of `add`),
while the claimed `round(0 + 1, 2)` is `1`. -/
theorem C2_counterexample :
    (Currency.add (Currency.mkUser (CInput.num 0) {})
      (CInput.cur (Currency.mkUser (CInput.num 1) {}))).value = 50 ∧
    specRound ((Currency.mkUser (CInput.num 0) {}).value +
      (Currency.mkUser (CInput.num 1) {}).value) 2 = 1 ∧
    (50 : ℚ) ≠ 1 := by
  have hq2 : qpow ((mergeOpts ({} : POpts)).precision) = 100 := by
    show qpow 2 = 100
    norm_num [qpow]
  have hP0 : Currency.parseValR (CInput.num 0) (mergeOpts {}) = 0 :=
    Currency.parseValR_of_raw _ _ 0 (by rw [Currency.parseRaw_num]; norm_num)
  have hP1 : Currency.parseValR (CInput.num 1) (mergeOpts {}) = 100 := by
    refine Currency.parseValR_of_raw _ _ 100 ?_
    rw [Currency.parseRaw_num, hq2]
    norm_num
  have h0 : (Currency.mkUser (CInput.num 0) {}).intValue = 0 := hP0
  have hbval : (Currency.mkUser (CInput.num 1) {}).value = 1 := by
    rw [mkUser_value, hP1, hq2]
    norm_num
  have haval : (Currency.mkUser (CInput.num 0) {}).value = 0 := by
    rw [mkUser_value, hP0]
    norm_num
  refine ⟨?_, ?_, by norm_num⟩
  · rw [add_fallback _ _ h0]
    have hpcur : Currency.parseValR
        (CInput.cur (Currency.mkUser (CInput.num 1) {})) defaults = 100 := by
      refine Currency.parseValR_of_raw _ _ 100 ?_
      rw [Currency.parseRaw_cur, hbval]
      show (1 : ℚ) * qpow 2 = _
      norm_num [qpow]
    rw [Currency.mkC_value, hpcur]
    have hdp : defaults.precision = 2 := rfl
    have harg : ((100 : ℤ) : ℚ) / (defaults.precision : ℚ) = ((50 : ℤ) : ℚ) := by
      rw [hdp]
      push_cast
      norm_num
    rw [harg]
    have hsp : (Currency.mkUser (CInput.num 0) ({} : POpts)).settings.precision = 2 := rfl
    have h2 : Currency.parseValR (CInput.num ((50 : ℤ) : ℚ))
        (Currency.mkUser (CInput.num 0) ({} : POpts)).settings = 5000 := by
      refine Currency.parseValR_of_raw _ _ 5000 ?_
      rw [Currency.parseRaw_num, hsp]
      show ((50 : ℤ) : ℚ) * qpow 2 = _
      push_cast [qpow]
      norm_num
    rw [h2, hsp]
    show ((5000 : ℤ) : ℚ) / qpow 2 = 50
    norm_num [qpow]
  · rw [haval, hbval]
    unfold specRound
    have h3 : (0 + 1 : ℚ) * qpow 2 = ((100 : ℤ) : ℚ) := by norm_num [qpow]
    rw [h3, jsRound_intCast]
    norm_num [qpow]

/-- C2 amended: additivity holds for every receiver with a nonzero scaled
integer: for values `j/10^p` and `k/10^p` exactly representable at the
configured precision `p`, with `j ≠ 0`, the value of `a.add(b)` is the sum
of the values rounded to precision `p` (and the rounding is the identity
here, the sum being exactly representable). -/
theorem C2_additivity (p : ℕ) (j k : ℤ) (hj : j ≠ 0) :
    (Currency.add (Currency.mkUser (CInput.num ((j : ℚ) / qpow p)) {precision := some p})
      (CInput.cur
        (Currency.mkUser (CInput.num ((k : ℚ) / qpow p)) {precision := some p}))).value =
    specRound
      ((Currency.mkUser (CInput.num ((j : ℚ) / qpow p)) {precision := some p}).value +
        (Currency.mkUser (CInput.num ((k : ℚ) / qpow p)) {precision := some p}).value)
      p := by
  have hpq : qpow p ≠ 0 := qpow_ne_zero p
  have hprec : (mergeOpts {precision := some p}).precision = p := rfl
  have hPa : Currency.parseValR (CInput.num ((j : ℚ) / qpow p))
      (mergeOpts {precision := some p}) = j := by
    refine Currency.parseValR_of_raw _ _ j ?_
    rw [Currency.parseRaw_num, hprec]
    exact div_mul_cancel₀ _ hpq
  have hPb : Currency.parseValR (CInput.num ((k : ℚ) / qpow p))
      (mergeOpts {precision := some p}) = k := by
    refine Currency.parseValR_of_raw _ _ k ?_
    rw [Currency.parseRaw_num, hprec]
    exact div_mul_cancel₀ _ hpq
  have haint : (Currency.mkUser (CInput.num ((j : ℚ) / qpow p))
      {precision := some p}).intValue = j := hPa
  have haval : (Currency.mkUser (CInput.num ((j : ℚ) / qpow p))
      {precision := some p}).value = (j : ℚ) / qpow p := by
    rw [mkUser_value, hPa, hprec]
  have hbval : (Currency.mkUser (CInput.num ((k : ℚ) / qpow p))
      {precision := some p}).value = (k : ℚ) / qpow p := by
    rw [mkUser_value, hPb, hprec]
  have hapf : (Currency.mkUser (CInput.num ((j : ℚ) / qpow p))
      {precision := some p}).precisionFactor = qpow p := by
    rw [mkUser_precisionFactor, hprec]
  have hasp : (Currency.mkUser (CInput.num ((j : ℚ) / qpow p))
      {precision := some p}).settings.precision = p := rfl
  have hga : (Currency.mkUser (CInput.num ((j : ℚ) / qpow p))
      {precision := some p}).intValue ≠ 0 := by rw [haint]; exact hj
  have hgpf : (Currency.mkUser (CInput.num ((j : ℚ) / qpow p))
      {precision := some p}).precisionFactor ≠ 0 := by rw [hapf]; exact hpq
  unfold Currency.add
  rw [if_pos ⟨hga, hgpf⟩]
  have hpcur : Currency.parseValR
      (CInput.cur (Currency.mkUser (CInput.num ((k : ℚ) / qpow p)) {precision := some p}))
      (Currency.mkUser (CInput.num ((j : ℚ) / qpow p)) {precision := some p}).settings =
      k := by
    refine Currency.parseValR_of_raw _ _ k ?_
    rw [Currency.parseRaw_cur, hbval, hasp]
    exact div_mul_cancel₀ _ hpq
  rw [Currency.mkC_value, haint, hpcur, hapf, hasp]
  have harg : ((j : ℚ) + (k : ℚ)) / qpow p = ((j + k : ℤ) : ℚ) / qpow p := by
    push_cast
    ring
  rw [harg]
  have hPsum : Currency.parseValR (CInput.num (((j + k : ℤ) : ℚ) / qpow p))
      (Currency.mkUser (CInput.num ((j : ℚ) / qpow p)) {precision := some p}).settings =
      j + k := by
    refine Currency.parseValR_of_raw _ _ (j + k) ?_
    rw [Currency.parseRaw_num, hasp]
    exact div_mul_cancel₀ _ hpq
  rw [hPsum, haval, hbval]
  unfold specRound
  have h3 : ((j : ℚ) / qpow p + (k : ℚ) / qpow p) * qpow p = ((j + k : ℤ) : ℚ) := by
    rw [div_add_div_same, div_mul_cancel₀ _ hpq]
    push_cast
    ring
  rw [h3, jsRound_intCast]

/-- C2 witness: additivity at `p = 2`, `j = 1`, `k = 2` (the values `0.01`
and `0.02`). -/
theorem C2_additivity_witness :
    (Currency.add (Currency.mkUser (CInput.num (((1 : ℤ) : ℚ) / qpow 2)) {precision := some 2})
      (CInput.cur
        (Currency.mkUser (CInput.num (((2 : ℤ) : ℚ) / qpow 2)) {precision := some 2}))).value =
    specRound
      ((Currency.mkUser (CInput.num (((1 : ℤ) : ℚ) / qpow 2)) {precision := some 2}).value +
        (Currency.mkUser (CInput.num (((2 : ℤ) : ℚ) / qpow 2)) {precision := some 2}).value)
      2 :=
  C2_additivity 2 1 2 (by norm_num)

/-- Helper: adding one smallest unit through `add` to a share of `m ≠ 0`
smallest units yields `m + 1` smallest units (the guarded branch). -/
theorem add_one_unit (s : Settings) (q : ℚ) (m : ℤ) (hm : m ≠ 0)
    (hq : Currency.parseValR (CInput.num q) s = m) :
    (Currency.add (Currency.mkC (CInput.num q) s)
      (CInput.num (1 / qpow s.precision))).intValue = m + 1 := by
  have h0 : (Currency.mkC (CInput.num q) s).intValue = m := hq
  have hpf : (Currency.mkC (CInput.num q) s).precisionFactor = qpow s.precision := rfl
  have hsp : (Currency.mkC (CInput.num q) s).settings.precision = s.precision := rfl
  have hga : (Currency.mkC (CInput.num q) s).intValue ≠ 0 := by rw [h0]; exact hm
  have hgpf : (Currency.mkC (CInput.num q) s).precisionFactor ≠ 0 := by
    rw [hpf]; exact qpow_ne_zero _
  unfold Currency.add
  rw [if_pos ⟨hga, hgpf⟩]
  have hp1 : Currency.parseValR (CInput.num (1 / qpow s.precision))
      (Currency.mkC (CInput.num q) s).settings = 1 := by
    refine Currency.parseValR_of_raw _ _ 1 ?_
    rw [Currency.parseRaw_num, hsp, div_mul_cancel₀ _ (qpow_ne_zero _)]
    norm_num
  rw [h0, hp1, hpf]
  have harg : ((m : ℚ) + ((1 : ℤ) : ℚ)) / qpow s.precision =
      ((m + 1 : ℤ) : ℚ) / qpow s.precision := by push_cast; ring
  rw [harg]
  refine Currency.parseValR_of_raw _ _ (m + 1) ?_
  rw [Currency.parseRaw_num, hsp]
  exact div_mul_cancel₀ _ (qpow_ne_zero _)

/-- Helper: subtracting one smallest unit through `subtract` from a share
of `m ≠ 0` smallest units yields `m - 1` smallest units. -/
theorem subtract_one_unit (s : Settings) (q : ℚ) (m : ℤ) (hm : m ≠ 0)
    (hq : Currency.parseValR (CInput.num q) s = m) :
    (Currency.subtract (Currency.mkC (CInput.num q) s)
      (CInput.num (1 / qpow s.precision))).intValue = m - 1 := by
  have h0 : (Currency.mkC (CInput.num q) s).intValue = m := hq
  have hpf : (Currency.mkC (CInput.num q) s).precisionFactor = qpow s.precision := rfl
  have hsp : (Currency.mkC (CInput.num q) s).settings.precision = s.precision := rfl
  have hga : (Currency.mkC (CInput.num q) s).intValue ≠ 0 := by rw [h0]; exact hm
  have hgpf : (Currency.mkC (CInput.num q) s).precisionFactor ≠ 0 := by
    rw [hpf]; exact qpow_ne_zero _
  unfold Currency.subtract
  rw [if_pos ⟨hga, hgpf⟩]
  have hp1 : Currency.parseValR (CInput.num (1 / qpow s.precision))
      (Currency.mkC (CInput.num q) s).settings = 1 := by
    refine Currency.parseValR_of_raw _ _ 1 ?_
    rw [Currency.parseRaw_num, hsp, div_mul_cancel₀ _ (qpow_ne_zero _)]
    norm_num
  rw [h0, hp1, hpf]
  have harg : ((m : ℚ) - ((1 : ℤ) : ℚ)) / qpow s.precision =
      ((m - 1 : ℤ) : ℚ) / qpow s.precision := by push_cast; ring
  rw [harg]
  refine Currency.parseValR_of_raw _ _ (m - 1) ?_
  rw [Currency.parseRaw_num, hsp]
  exact div_mul_cancel₀ _ (qpow_ne_zero _)

/-- Helper: the distribution loop always produces `count` entries. -/
theorem distLoop_length (c : Currency) (split : ℤ) :
    ∀ (n : ℕ) (pennies : ℤ), (Currency.distLoop c split n pennies).length = n := by
  intro n
  induction n with
  | zero => intro pennies; rfl
  | succ k ih =>
    intro pennies
    simp only [Currency.distLoop, List.length_cons, ih]

/-- Helper: sum of the scaled integers produced by the distribution loop:
`n` shares of `split` units plus (non-negative receiver) or minus
(negative receiver) one unit for each of the first `max pennies 0 ⊓ n`
entries. -/
theorem distLoop_sum (c : Currency) (split : ℤ) (hs : split ≠ 0)
    (hpf : c.precisionFactor = qpow c.settings.precision) :
    ∀ (n : ℕ) (pennies : ℤ),
      ((Currency.distLoop c split n pennies).map Currency.intValue).sum =
        n * split + (if 0 ≤ c.intValue then 1 else -1) * min (max pennies 0) n := by
  have hitem0 : (Currency.mkC (CInput.num ((split : ℚ) / c.precisionFactor))
      c.settings).intValue = split := by
    rw [hpf]
    exact Currency.parse_exact split c.settings
  have hadd : (Currency.add
      (Currency.mkC (CInput.num ((split : ℚ) / c.precisionFactor)) c.settings)
      (CInput.num (1 / c.precisionFactor))).intValue = split + 1 := by
    rw [hpf]
    exact add_one_unit c.settings _ split hs (Currency.parse_exact split c.settings)
  have hsub : (Currency.subtract
      (Currency.mkC (CInput.num ((split : ℚ) / c.precisionFactor)) c.settings)
      (CInput.num (1 / c.precisionFactor))).intValue = split - 1 := by
    rw [hpf]
    exact subtract_one_unit c.settings _ split hs (Currency.parse_exact split c.settings)
  intro n
  induction n with
  | zero =>
    intro pennies
    simp [Currency.distLoop, min_eq_right (le_max_right pennies 0)]
  | succ k ih =>
    intro pennies
    simp only [Currency.distLoop, List.map_cons, List.sum_cons, ih (pennies - 1)]
    by_cases hp : (0 : ℤ) < pennies
    · rw [if_pos hp]
      by_cases hn : (0 : ℤ) ≤ c.intValue
      · rw [if_pos hn, if_pos hn, hadd]
        have hmm : min (max (pennies - 1) 0) (k : ℤ) + 1 =
            min (max pennies 0) ((k : ℤ) + 1) := by omega
        push_cast
        linarith [hmm]
      · rw [if_neg hn, if_neg hn, hsub]
        have hmm : min (max (pennies - 1) 0) (k : ℤ) + 1 =
            min (max pennies 0) ((k : ℤ) + 1) := by omega
        push_cast
        linarith [hmm]
    · rw [if_neg hp, hitem0]
      have hmm : min (max (pennies - 1) 0) (k : ℤ) = min (max pennies 0) ((k : ℤ) + 1) := by
        omega
      by_cases hn : (0 : ℤ) ≤ c.intValue
      · rw [if_pos hn]
        push_cast
        linarith [hmm]
      · rw [if_neg hn]
        push_cast
        linarith [hmm]

/-- Helper: unfolding `distribute` once the guard holds. -/
theorem distribute_eq (c : Currency) (n : ℕ) (h1 : c.intValue ≠ 0)
    (h2 : c.precisionFactor ≠ 0) (split : ℤ)
    (hsp : split = if 0 ≤ c.intValue then ⌊(c.intValue : ℚ) / (n : ℚ)⌋
      else ⌈(c.intValue : ℚ) / (n : ℚ)⌉) :
    Currency.distribute c n =
      some (Currency.distLoop c split n |c.intValue - split * n|) := by
  unfold Currency.distribute
  rw [if_pos ⟨h1, h2⟩, hsp]

/-- Helper: one unfolding step of the distribution loop. -/
theorem distLoop_succ (c : Currency) (split : ℤ) (n : ℕ) (pennies : ℤ) :
    Currency.distLoop c split (n + 1) pennies =
      (if 0 < pennies then
        (if 0 ≤ c.intValue then
          Currency.add
            (Currency.mkC (CInput.num ((split : ℚ) / c.precisionFactor)) c.settings)
            (CInput.num (1 / c.precisionFactor))
         else
          Currency.subtract
            (Currency.mkC (CInput.num ((split : ℚ) / c.precisionFactor)) c.settings)
            (CInput.num (1 / c.precisionFactor)))
       else Currency.mkC (CInput.num ((split : ℚ) / c.precisionFactor)) c.settings) ::
      Currency.distLoop c split n (pennies - 1) := rfl

/-- Helper: the empty distribution loop. -/
theorem distLoop_zero (c : Currency) (split : ℤ) (pennies : ℤ) :
    Currency.distLoop c split 0 pennies = [] := rfl

/-- Helper: `add`ing one smallest unit to a zero share under a precision-2
configuration lands in the fallback branch and produces 50 smallest
units (`parse(0.01, defaults) = 1`, divided by the precision count 2,
re-scaled by 100). -/
theorem add_zero_share_default (s : Settings) (q : ℚ) (hsp : s.precision = 2)
    (hq : Currency.parseValR (CInput.num q) s = 0) :
    (Currency.add (Currency.mkC (CInput.num q) s)
      (CInput.num (1 / qpow s.precision))).intValue = 50 := by
  have h0 : (Currency.mkC (CInput.num q) s).intValue = 0 := hq
  rw [add_fallback _ _ h0, Currency.mkC_intValue]
  have hp1 : Currency.parseValR (CInput.num (1 / qpow s.precision)) defaults = 1 := by
    refine Currency.parseValR_of_raw _ _ 1 ?_
    rw [Currency.parseRaw_num, hsp]
    have hq2 : qpow defaults.precision = qpow 2 := rfl
    rw [hq2, div_mul_cancel₀ _ (qpow_ne_zero 2)]
    norm_num
  rw [hp1]
  refine Currency.parseValR_of_raw _ _ 50 ?_
  rw [Currency.parseRaw_num]
  have h1 : (Currency.mkC (CInput.num q) s).settings.precision = s.precision := rfl
  rw [h1, hsp]
  have hdp : defaults.precision = 2 := rfl
  rw [hdp]
  push_cast [qpow]
  norm_num

/-- C1 counterexample: the Money Value `0.01` (scaled integer `1`) split
two ways produces shares with scaled integers `[50, 0]` — the zero share
plus one penny goes through the broken `add` fallback — so the sum is
`50`, not the original `1`. -/
theorem C1_counterexample :
    Option.map (fun l => List.map Currency.intValue l)
      (Currency.distribute (Currency.mkUser (CInput.num (1 / 100)) {}) 2) =
      some [50, 0] ∧
    (Currency.mkUser (CInput.num (1 / 100)) {}).intValue = 1 ∧
    (50 : ℤ) + 0 ≠ 1 := by
  have hq2 : qpow ((mergeOpts ({} : POpts)).precision) = 100 := by
    show qpow 2 = 100
    norm_num [qpow]
  have hP : Currency.parseValR (CInput.num (1 / 100)) (mergeOpts {}) = 1 := by
    refine Currency.parseValR_of_raw _ _ 1 ?_
    rw [Currency.parseRaw_num, hq2]
    norm_num
  have hint : (Currency.mkUser (CInput.num (1 / 100)) {}).intValue = 1 := hP
  have hga : (Currency.mkUser (CInput.num (1 / 100)) {}).intValue ≠ 0 := by
    rw [hint]; decide
  have hgpf : (Currency.mkUser (CInput.num (1 / 100)) {}).precisionFactor ≠ 0 := by
    rw [mkUser_precisionFactor]; exact qpow_ne_zero _
  have hsplit : (0 : ℤ) =
      if 0 ≤ (Currency.mkUser (CInput.num (1 / 100)) {}).intValue then
        ⌊((Currency.mkUser (CInput.num (1 / 100)) {}).intValue : ℚ) / ((2 : ℕ) : ℚ)⌋
      else ⌈((Currency.mkUser (CInput.num (1 / 100)) {}).intValue : ℚ) / ((2 : ℕ) : ℚ)⌉ := by
    rw [hint, if_pos (by decide : (0 : ℤ) ≤ 1)]
    symm
    push_cast
    norm_num
  have hd := distribute_eq (Currency.mkUser (CInput.num (1 / 100)) {}) 2 hga hgpf 0 hsplit
  have hpen : |(Currency.mkUser (CInput.num (1 / 100)) {}).intValue - 0 * ((2 : ℕ) : ℤ)| =
      1 := by
    rw [hint]; decide
  rw [hpen] at hd
  refine ⟨?_, hint, by decide⟩
  rw [hd]
  simp only [Option.map_some', Option.some.injEq]
  rw [show (2 : ℕ) = 1 + 1 from rfl, distLoop_succ,
    show (1 : ℤ) - 1 = 0 from by decide, show (1 : ℕ) = 0 + 1 from rfl, distLoop_succ,
    show (0 : ℤ) - 1 = -1 from by decide, distLoop_zero]
  rw [hint, if_pos (by decide : (0 : ℤ) < 1), if_neg (by decide : ¬ (0 : ℤ) < 0),
    if_pos (by decide : (0 : ℤ) ≤ 1)]
  have hpfq : (Currency.mkUser (CInput.num (1 / 100)) {}).precisionFactor =
      qpow ((Currency.mkUser (CInput.num (1 / 100)) {}).settings.precision) := rfl
  rw [hpfq]
  simp only [List.map_cons, List.map_nil]
  rw [add_zero_share_default ((Currency.mkUser (CInput.num (1 / 100)) {}).settings) _ rfl
    (Currency.parse_exact 0 _)]
  rw [show (Currency.mkC
      (CInput.num (((0 : ℤ) : ℚ) /
        qpow ((Currency.mkUser (CInput.num (1 / 100)) {}).settings.precision)))
      ((Currency.mkUser (CInput.num (1 / 100)) {}).settings)).intValue = 0 from
    Currency.parse_exact 0 _]

/-- C1 amended: distribution conservation holds for every Money Value `x`
with nonzero scaled integer and every positive `n` that does not exceed
`|x.scaledInt|` (so that every share holds at least one smallest unit):
`x.distribute(n)` yields `n` Money Values whose scaled integers sum to
`x.scaledInt`.  When `0 < |x.scaledInt| < n` the zero shares send their
extra penny through the broken `add`/`subtract` fallback and the sum is
not conserved. -/
theorem C1_conservation (c : Currency) (n : ℕ)
    (hpf : c.precisionFactor = qpow c.settings.precision)
    (hn : 0 < n) (hb : (n : ℤ) ≤ |c.intValue|) :
    ∃ l, Currency.distribute c n = some l ∧ l.length = n ∧
      (l.map Currency.intValue).sum = c.intValue := by
  have hint : c.intValue ≠ 0 := by
    intro h
    rw [h] at hb
    simp at hb
    omega
  have hpf0 : c.precisionFactor ≠ 0 := by rw [hpf]; exact qpow_ne_zero _
  have hnq : (0 : ℚ) < (n : ℚ) := by exact_mod_cast hn
  rcases le_or_lt 0 c.intValue with hsgn | hsgn
  · have habs : |c.intValue| = c.intValue := abs_of_nonneg hsgn
    rw [habs] at hb
    have hspeq : ⌊(c.intValue : ℚ) / (n : ℚ)⌋ =
        if 0 ≤ c.intValue then ⌊(c.intValue : ℚ) / (n : ℚ)⌋
        else ⌈(c.intValue : ℚ) / (n : ℚ)⌉ := by rw [if_pos hsgn]
    have h1 : (⌊(c.intValue : ℚ) / (n : ℚ)⌋ : ℚ) ≤ (c.intValue : ℚ) / (n : ℚ) :=
      Int.floor_le _
    have h2 : (c.intValue : ℚ) / (n : ℚ) < ⌊(c.intValue : ℚ) / (n : ℚ)⌋ + 1 :=
      Int.lt_floor_add_one _
    have hsl : ⌊(c.intValue : ℚ) / (n : ℚ)⌋ * (n : ℤ) ≤ c.intValue := by
      have h3 := (le_div_iff hnq).mp h1
      exact_mod_cast h3
    have hsu : c.intValue < ⌊(c.intValue : ℚ) / (n : ℚ)⌋ * (n : ℤ) + (n : ℤ) := by
      have h3 : (c.intValue : ℚ) < ((⌊(c.intValue : ℚ) / (n : ℚ)⌋ : ℚ) + 1) * (n : ℚ) :=
        (div_lt_iff hnq).mp h2
      have h4 : (c.intValue : ℚ) <
          ((⌊(c.intValue : ℚ) / (n : ℚ)⌋ * (n : ℤ) + (n : ℤ) : ℤ) : ℚ) := by
        push_cast
        linarith
      exact_mod_cast h4
    have hsp1 : 1 ≤ ⌊(c.intValue : ℚ) / (n : ℚ)⌋ := by
      apply Int.le_floor.mpr
      rw [le_div_iff hnq]
      have hbq : (n : ℚ) ≤ (c.intValue : ℚ) := by exact_mod_cast hb
      push_cast
      linarith
    have hs : ⌊(c.intValue : ℚ) / (n : ℚ)⌋ ≠ 0 := by omega
    have hx0 : 0 ≤ c.intValue - ⌊(c.intValue : ℚ) / (n : ℚ)⌋ * (n : ℤ) := by linarith
    have hxn : c.intValue - ⌊(c.intValue : ℚ) / (n : ℚ)⌋ * (n : ℤ) ≤ (n : ℤ) := by linarith
    have hpen : |c.intValue - ⌊(c.intValue : ℚ) / (n : ℚ)⌋ * (n : ℤ)| =
        c.intValue - ⌊(c.intValue : ℚ) / (n : ℚ)⌋ * (n : ℤ) := abs_of_nonneg hx0
    refine ⟨_, distribute_eq c n hint hpf0 _ hspeq, distLoop_length c _ n _, ?_⟩
    rw [distLoop_sum c _ hs hpf n _, if_pos hsgn, hpen,
      max_eq_left hx0, min_eq_left hxn]
    ring
  · have habs : |c.intValue| = -c.intValue := abs_of_neg hsgn
    rw [habs] at hb
    have hspeq : ⌈(c.intValue : ℚ) / (n : ℚ)⌉ =
        if 0 ≤ c.intValue then ⌊(c.intValue : ℚ) / (n : ℚ)⌋
        else ⌈(c.intValue : ℚ) / (n : ℚ)⌉ := by rw [if_neg (not_le.mpr hsgn)]
    have h1 : (c.intValue : ℚ) / (n : ℚ) ≤ (⌈(c.intValue : ℚ) / (n : ℚ)⌉ : ℚ) :=
      Int.le_ceil _
    have h2 : (⌈(c.intValue : ℚ) / (n : ℚ)⌉ : ℚ) < (c.intValue : ℚ) / (n : ℚ) + 1 :=
      Int.ceil_lt_add_one _
    have hsl : c.intValue ≤ ⌈(c.intValue : ℚ) / (n : ℚ)⌉ * (n : ℤ) := by
      have h3 := (div_le_iff hnq).mp h1
      exact_mod_cast h3
    have hsu : ⌈(c.intValue : ℚ) / (n : ℚ)⌉ * (n : ℤ) < c.intValue + (n : ℤ) := by
      have h3 : ((⌈(c.intValue : ℚ) / (n : ℚ)⌉ : ℚ) - 1) * (n : ℚ) < (c.intValue : ℚ) := by
        rw [sub_mul]
        have h5 : ((⌈(c.intValue : ℚ) / (n : ℚ)⌉ : ℚ)) * (n : ℚ) <
            ((c.intValue : ℚ) / (n : ℚ) + 1) * (n : ℚ) := by
          exact mul_lt_mul_of_pos_right h2 hnq
        rw [add_mul, div_mul_cancel₀ _ (ne_of_gt hnq)] at h5
        linarith
      have h4 : ((⌈(c.intValue : ℚ) / (n : ℚ)⌉ * (n : ℤ) : ℤ) : ℚ) <
          (c.intValue : ℚ) + (n : ℚ) := by
        push_cast
        linarith
      exact_mod_cast h4
    have hsp1 : ⌈(c.intValue : ℚ) / (n : ℚ)⌉ ≤ -1 := by
      apply Int.ceil_le.mpr
      rw [div_le_iff hnq]
      have hbq : (n : ℚ) ≤ -(c.intValue : ℚ) := by exact_mod_cast hb
      push_cast
      linarith
    have hs : ⌈(c.intValue : ℚ) / (n : ℚ)⌉ ≠ 0 := by omega
    have hx0 : 0 ≤ ⌈(c.intValue : ℚ) / (n : ℚ)⌉ * (n : ℤ) - c.intValue := by linarith
    have hxn : ⌈(c.intValue : ℚ) / (n : ℚ)⌉ * (n : ℤ) - c.intValue ≤ (n : ℤ) := by linarith
    have hpen : |c.intValue - ⌈(c.intValue : ℚ) / (n : ℚ)⌉ * (n : ℤ)| =
        ⌈(c.intValue : ℚ) / (n : ℚ)⌉ * (n : ℤ) - c.intValue := by
      rw [abs_sub_comm]
      exact abs_of_nonneg hx0
    refine ⟨_, distribute_eq c n hint hpf0 _ hspeq, distLoop_length c _ n _, ?_⟩
    rw [distLoop_sum c _ hs hpf n _, if_neg (not_le.mpr hsgn), hpen,
      max_eq_left hx0, min_eq_left hxn]
    ring

/-- C1 witness: distributing the default-configured Money Value `1`
(scaled integer `100`) three ways conserves the total. -/
theorem C1_conservation_witness :
    ∃ l, Currency.distribute (Currency.mkUser (CInput.num 1) {}) 3 = some l ∧
      l.length = 3 ∧
      (l.map Currency.intValue).sum = (Currency.mkUser (CInput.num 1) {}).intValue := by
  have hint : (Currency.mkUser (CInput.num 1) {}).intValue = 100 := by
    refine Currency.parseValR_of_raw _ _ 100 ?_
    rw [Currency.parseRaw_num]
    show (1 : ℚ) * qpow 2 = _
    norm_num [qpow]
  refine C1_conservation _ 3 rfl (by norm_num) ?_
  rw [hint]
  decide

/-! Lemmas about decimal digit strings. -/

theorem digitVal_digitChar : ∀ d : ℕ, d < 10 → digitVal (digitChar d) = d := by decide

theorem isDigit_digitChar : ∀ d : ℕ, d < 10 → (digitChar d).isDigit = true := by decide

theorem natDigitsLE_digits : ∀ n : ℕ, ∀ c ∈ natDigitsLE n, c.isDigit = true := by
  intro n
  induction n using Nat.strong_induction_on with
  | _ n ih =>
    rw [natDigitsLE]
    by_cases h : n = 0
    · rw [dif_pos h]
      intro c hc
      exact absurd hc (List.not_mem_nil c)
    · rw [dif_neg h]
      intro c hc
      rcases List.mem_cons.mp hc with h1 | h1
      · rw [h1]
        exact isDigit_digitChar _ (Nat.mod_lt _ (by norm_num))
      · exact ih (n / 10) (Nat.div_lt_self (Nat.pos_of_ne_zero h) (by norm_num)) c h1

theorem natDigits_digits (n : ℕ) : ∀ c ∈ natDigits n, c.isDigit = true := by
  unfold natDigits
  by_cases h : n = 0
  · rw [if_pos h]
    intro c hc
    rcases List.mem_singleton.mp hc with rfl
    decide
  · rw [if_neg h]
    intro c hc
    exact natDigitsLE_digits n c (List.mem_reverse.mp hc)

theorem natDigits_ne_nil (n : ℕ) : natDigits n ≠ [] := by
  unfold natDigits
  by_cases h : n = 0
  · rw [if_pos h]
    simp
  · rw [if_neg h, ← List.length_pos]
    rw [List.length_reverse, natDigitsLE]
    rw [dif_neg h]
    simp

theorem digitsVal_append_singleton (l : List Char) (c : Char) :
    digitsVal (l ++ [c]) = 10 * digitsVal l + digitVal c := by
  unfold digitsVal
  rw [List.foldl_append]
  rfl

theorem digitsVal_natDigitsLE_reverse : ∀ n : ℕ, digitsVal (natDigitsLE n).reverse = n := by
  intro n
  induction n using Nat.strong_induction_on with
  | _ n ih =>
    rw [natDigitsLE]
    by_cases h : n = 0
    · rw [dif_pos h, h]
      rfl
    · rw [dif_neg h, List.reverse_cons, digitsVal_append_singleton,
        ih (n / 10) (Nat.div_lt_self (Nat.pos_of_ne_zero h) (by norm_num)),
        digitVal_digitChar _ (Nat.mod_lt _ (by norm_num))]
      omega

theorem digitsVal_natDigits (n : ℕ) : digitsVal (natDigits n) = n := by
  unfold natDigits
  by_cases h : n = 0
  · rw [if_pos h, h]
    rfl
  · rw [if_neg h]
    exact digitsVal_natDigitsLE_reverse n

theorem foldl_digits_replicate_zero :
    ∀ z : ℕ, List.foldl (fun a c => 10 * a + digitVal c) 0 (List.replicate z '0') = 0 := by
  intro z
  induction z with
  | zero => rfl
  | succ k ih =>
    rw [List.replicate_succ, List.foldl_cons]
    exact ih

theorem digitsVal_replicate_zero (z : ℕ) (l : List Char) :
    digitsVal (List.replicate z '0' ++ l) = digitsVal l := by
  unfold digitsVal
  rw [List.foldl_append, foldl_digits_replicate_zero]

theorem natDigitsLE_length_le : ∀ p n : ℕ, n < 10 ^ p → (natDigitsLE n).length ≤ p := by
  intro p
  induction p with
  | zero =>
    intro n h
    have h0 : n = 0 := by omega
    rw [h0, natDigitsLE]
    simp
  | succ k ih =>
    intro n h
    rw [natDigitsLE]
    by_cases h0 : n = 0
    · rw [dif_pos h0]
      simp
    · rw [dif_neg h0]
      simp only [List.length_cons]
      have hd : n / 10 < 10 ^ k := by
        refine (Nat.div_lt_iff_lt_mul (by norm_num)).mpr ?_
        rw [← pow_succ]
        exact h
      have := ih (n / 10) hd
      omega

theorem natDigits_length_le (n p : ℕ) (h : n < 10 ^ p) (hp : p ≠ 0) :
    (natDigits n).length ≤ p := by
  unfold natDigits
  by_cases h0 : n = 0
  · rw [if_pos h0]
    simp
    omega
  · rw [if_neg h0, List.length_reverse]
    exact natDigitsLE_length_le p n h

theorem fracDigits_length (m p : ℕ) (hp : p ≠ 0) : (fracDigits m p).length = p := by
  unfold fracDigits
  simp only [List.length_append, List.length_replicate]
  have h1 : (natDigits (m % 10 ^ p)).length ≤ p :=
    natDigits_length_le _ p (Nat.mod_lt _ (by positivity)) hp
  omega

theorem fracDigits_digits (m p : ℕ) : ∀ c ∈ fracDigits m p, c.isDigit = true := by
  unfold fracDigits
  intro c hc
  rcases List.mem_append.mp hc with h | h
  · rw [List.eq_of_mem_replicate h]
    decide
  · exact natDigits_digits _ c h

theorem digitsVal_fracDigits (m p : ℕ) : digitsVal (fracDigits m p) = m % 10 ^ p := by
  unfold fracDigits
  rw [digitsVal_replicate_zero, digitsVal_natDigits]

/-- Helper: every string `toFixed` produces is a plain decimal string. -/
theorem toFixedStr_plain (q : ℚ) (p : ℕ) : plainDecimal p (toFixedStr q p) := by
  refine ⟨if q < 0 then ['-'] else [],
    natDigits ((⌊|q| * qpow p + 1 / 2⌋).toNat / 10 ^ p),
    if p = 0 then [] else fracDigits (⌊|q| * qpow p + 1 / 2⌋).toNat p,
    ?_, ?_, natDigits_ne_nil _, natDigits_digits _, ?_, ?_⟩
  · by_cases hq : q < 0
    · right; rw [if_pos hq]
    · left; rw [if_neg hq]
  · unfold toFixedStr
    by_cases hp : p = 0
    · rw [if_pos hp, if_pos hp]
    · rw [if_neg hp, if_neg hp, if_neg hp]
  · by_cases hp : p = 0
    · rw [if_pos hp, hp]
      rfl
    · rw [if_neg hp]
      exact fracDigits_length _ _ hp
  · by_cases hp : p = 0
    · rw [if_pos hp]
      intro c hc
      exact absurd hc (List.not_mem_nil c)
    · rw [if_neg hp]
      exact fracDigits_digits _ _

/-- C6 counterexample: the zero-valued default-configured Money Value has
`toString() = undefined`, not a decimal string, refuting the claim for
every Money Value. -/
theorem C6_counterexample : Currency.toString (Currency.mkUser (CInput.num 0) {}) = none := by
  have h0 : (Currency.mkUser (CInput.num 0) {}).intValue = 0 := by
    show Currency.parseValR (CInput.num 0) (mergeOpts {}) = 0
    exact Currency.parseValR_of_raw _ _ 0 (by rw [Currency.parseRaw_num]; norm_num)
  unfold Currency.toString
  rw [h0]
  simp

/-- C6 amended: for every Money Value whose scaled integer is nonzero
(and whose configured increment and precision factor are nonzero, as the
constructor guarantees), `toString()` applies the increment rounding rule
`round(value/increment) * increment` to `intValue/precisionFactor` and
returns its `toFixed(precision)` rendering: a plain decimal string —
optional minus, digits, and for nonzero precision a decimal point
followed by exactly `precision` fractional digits, with no symbol and no
grouping. -/
theorem C6_toString_plain (c : Currency) (h1 : c.intValue ≠ 0)
    (h2 : c.settings.increment ≠ 0) (h3 : c.precisionFactor ≠ 0) :
    Currency.toString c =
      some (toFixedStr (rounding ((c.intValue : ℚ) / c.precisionFactor)
        c.settings.increment) c.settings.precision) ∧
    plainDecimal c.settings.precision
      (toFixedStr (rounding ((c.intValue : ℚ) / c.precisionFactor)
        c.settings.increment) c.settings.precision) := by
  constructor
  · unfold Currency.toString
    rw [if_pos ⟨h1, h2, h3⟩]
  · exact toFixedStr_plain _ _

/-- C6 witness: the Money Value `1` under the default configuration. -/
theorem C6_toString_plain_witness :
    Currency.toString (Currency.mkUser (CInput.num 1) {}) =
      some (toFixedStr (rounding
        (((Currency.mkUser (CInput.num 1) {}).intValue : ℚ) /
          (Currency.mkUser (CInput.num 1) {}).precisionFactor)
        (Currency.mkUser (CInput.num 1) {}).settings.increment)
        (Currency.mkUser (CInput.num 1) {}).settings.precision) ∧
    plainDecimal (Currency.mkUser (CInput.num 1) {}).settings.precision
      (toFixedStr (rounding
        (((Currency.mkUser (CInput.num 1) {}).intValue : ℚ) /
          (Currency.mkUser (CInput.num 1) {}).precisionFactor)
        (Currency.mkUser (CInput.num 1) {}).settings.increment)
        (Currency.mkUser (CInput.num 1) {}).settings.precision) := by
  have hint : (Currency.mkUser (CInput.num 1) {}).intValue = 100 := by
    refine Currency.parseValR_of_raw _ _ 100 ?_
    rw [Currency.parseRaw_num]
    show (1 : ℚ) * qpow 2 = _
    norm_num [qpow]
  have hinc : (Currency.mkUser (CInput.num 1) {}).settings.increment = 1 / qpow 2 := by
    show (if (0 : ℚ) = 0 then 1 / qpow 2 else (0 : ℚ)) = 1 / qpow 2
    rw [if_pos rfl]
  refine C6_toString_plain _ ?_ ?_ ?_
  · rw [hint]; decide
  · rw [hinc]
    norm_num [qpow]
  · rw [mkUser_precisionFactor]
    exact qpow_ne_zero _

/-! Lemmas about the string transformations of `parse` and `format`. -/

theorem isDigit_ne (c : Char) (h : c.isDigit = true) :
    c ≠ '.' ∧ c ≠ '-' ∧ c ≠ ',' ∧ c ≠ '(' ∧ c ≠ '$' := by
  refine ⟨?_, ?_, ?_, ?_, ?_⟩ <;> (intro he; rw [he] at h; exact absurd h (by decide))

theorem takeWhile_append_eq (p : Char → Bool) (y : Char) (ys : List Char) :
    ∀ xs : List Char, (∀ x ∈ xs, p x = true) → p y = false →
      (xs ++ y :: ys).takeWhile p = xs ∧ (xs ++ y :: ys).dropWhile p = y :: ys := by
  intro xs
  induction xs with
  | nil =>
    intro _ hy
    simp [List.takeWhile_cons, List.dropWhile_cons, hy]
  | cons x xs ih =>
    intro hxs hy
    have hx : p x = true := hxs x (List.mem_cons_self _ _)
    obtain ⟨h1, h2⟩ := ih (fun a ha => hxs a (List.mem_cons_of_mem _ ha)) hy
    constructor
    · rw [List.cons_append, List.takeWhile_cons, if_pos hx, h1]
    · rw [List.cons_append, List.dropWhile_cons, if_pos hx, h2]

theorem splitOnChar_no (ch : Char) :
    ∀ l : List Char, (∀ x ∈ l, x ≠ ch) → splitOnChar ch l = [l] := by
  intro l
  induction l with
  | nil => intro _; rfl
  | cons x xs ih =>
    intro h
    have hx : x ≠ ch := h x (List.mem_cons_self _ _)
    rw [splitOnChar, if_neg hx, ih (fun a ha => h a (List.mem_cons_of_mem _ ha))]

theorem splitOnChar_append (ch : Char) :
    ∀ (a b : List Char), (∀ x ∈ a, x ≠ ch) →
      splitOnChar ch (a ++ ch :: b) = a :: splitOnChar ch b := by
  intro a
  induction a with
  | nil =>
    intro b _
    rw [List.nil_append, splitOnChar, if_pos rfl]
  | cons x xs ih =>
    intro b h
    have hx : x ≠ ch := h x (List.mem_cons_self _ _)
    rw [List.cons_append, splitOnChar, if_neg hx,
      ih b (fun a ha => h a (List.mem_cons_of_mem _ ha))]

theorem splitFirst_none (ch : Char) :
    ∀ l : List Char, (∀ x ∈ l, x ≠ ch) → splitFirst ch l = none := by
  intro l
  induction l with
  | nil => intro _; rfl
  | cons x xs ih =>
    intro h
    rw [splitFirst, if_neg (h x (List.mem_cons_self _ _)),
      ih (fun a ha => h a (List.mem_cons_of_mem _ ha))]
    rfl

theorem parenReplace_id (s : List Char) (h : ∀ x ∈ s, x ≠ '(') : parenReplace s = s := by
  unfold parenReplace
  rw [splitFirst_none '(' s h]

theorem map_decimal_id : ∀ l : List Char,
    l.map (fun c => if c = '.' then '.' else c) = l := by
  intro l
  induction l with
  | nil => rfl
  | cons x xs ih =>
    rw [List.map_cons, ih]
    by_cases hx : x = '.'
    · rw [if_pos hx, hx]
    · rw [if_neg hx]

theorem groupStdGo_filter (sep : Char) (keep : Char → Bool) (hsep : keep sep = false) :
    ∀ ds : List Char, (groupStdGo sep ds).filter keep = ds.filter keep := by
  intro ds
  induction ds with
  | nil => rfl
  | cons c cs ih =>
    rw [groupStdGo]
    by_cases hc : cs ≠ [] ∧ cs.length % 3 = 0
    · rw [if_pos hc]
      cases hkc : keep c
      · simp [List.filter_cons, hkc, hsep, ih]
      · simp [List.filter_cons, hkc, hsep, ih]
    · rw [if_neg hc]
      cases hkc : keep c
      · simp [List.filter_cons, hkc, ih]
      · simp [List.filter_cons, hkc, ih]

theorem groupStdGo_mem (sep : Char) :
    ∀ (ds : List Char) (x : Char), x ∈ groupStdGo sep ds → x ∈ ds ∨ x = sep := by
  intro ds
  induction ds with
  | nil =>
    intro x hx
    exact absurd hx (List.not_mem_nil x)
  | cons c cs ih =>
    intro x hx
    rw [groupStdGo] at hx
    rcases List.mem_cons.mp hx with h | h
    · left
      rw [h]
      exact List.mem_cons_self _ _
    · by_cases hc : cs ≠ [] ∧ cs.length % 3 = 0
      · rw [if_pos hc] at h
        rcases List.mem_cons.mp h with h2 | h2
        · right; exact h2
        · rcases ih x h2 with h3 | h3
          · left; exact List.mem_cons_of_mem _ h3
          · right; exact h3
      · rw [if_neg hc] at h
        rcases ih x h with h3 | h3
        · left; exact List.mem_cons_of_mem _ h3
        · right; exact h3

theorem filter_keep_digits (l : List Char) (h : ∀ c ∈ l, c.isDigit = true) :
    l.filter (stripKeep '.') = l := by
  refine List.filter_eq_self.mpr ?_
  intro a ha
  unfold stripKeep
  rw [h a ha]
  rfl

theorem dropLeadingMinus_digits (l r : List Char) (hl : l ≠ [])
    (hd : ∀ c ∈ l, c.isDigit = true) : dropLeadingMinus (l ++ r) = l ++ r := by
  obtain ⟨h, t, rfl⟩ := List.exists_cons_of_ne_nil hl
  unfold dropLeadingMinus
  rw [List.cons_append]
  simp only [List.headD_cons]
  rw [if_neg (isDigit_ne h (hd h (List.mem_cons_self _ _))).2.1]

theorem dropLeadingMinus_minus (r : List Char) : dropLeadingMinus ('-' :: r) = r := rfl

theorem jsNumberPos_decimal (ip fp : List Char) (hip : ∀ c ∈ ip, c.isDigit = true)
    (hipne : ip ≠ []) (hfp : ∀ c ∈ fp, c.isDigit = true) :
    jsNumberPos (ip ++ '.' :: fp) =
      some ((digitsVal ip : ℚ) + (digitsVal fp : ℚ) / qpow fp.length) := by
  obtain ⟨htake, hdrop⟩ := takeWhile_append_eq Char.isDigit '.' fp ip hip (by decide)
  unfold jsNumberPos
  rw [htake, hdrop]
  rw [if_neg (by simp)]
  have hall : (('.' :: fp).tail).all Char.isDigit = true := by
    rw [List.tail_cons, List.all_eq_true]
    exact hfp
  rw [if_pos ⟨rfl, hall, Or.inl hipne⟩, List.tail_cons]

/-- Helper: `toString` on a truthy receiver. -/
theorem toString_some (c : Currency) (h1 : c.intValue ≠ 0)
    (h2 : c.settings.increment ≠ 0) (h3 : c.precisionFactor ≠ 0) :
    Currency.toString c =
      some (toFixedStr (rounding ((c.intValue : ℚ) / c.precisionFactor)
        c.settings.increment) c.settings.precision) := by
  unfold Currency.toString
  rw [if_pos ⟨h1, h2, h3⟩]

/-- Helper: the `parse` string branch before post-processing. -/
theorem parseRaw_str (t : List Char) (s : Settings) :
    Currency.parseRaw (CInput.str t) s =
      ((jsNumber (parseStr s.decimal t)).getD 0) * qpow s.precision := rfl

/-- Helper: `toFixed(p)` of the exactly representable value `k / 10^p`. -/
theorem toFixedStr_int_div (k : ℤ) (p : ℕ) (hp : p ≠ 0) :
    toFixedStr ((k : ℚ) / qpow p) p =
      (if k < 0 then ['-'] else []) ++
        (natDigits (k.natAbs / 10 ^ p) ++ '.' :: fracDigits k.natAbs p) := by
  unfold toFixedStr
  have hm : (⌊|(k : ℚ) / qpow p| * qpow p + 1 / 2⌋).toNat = k.natAbs := by
    rw [abs_div, abs_of_pos (qpow_pos p), div_mul_cancel₀ _ (qpow_ne_zero p),
      ← Int.cast_abs, floor_add_half_intCast]
    rw [Int.abs_eq_natAbs]
    exact Int.toNat_natCast _
  rw [hm]
  have hcond : ((k : ℚ) / qpow p < 0) ↔ (k < 0) := by
    rw [div_lt_iff (qpow_pos p), zero_mul]
    exact Int.cast_lt_zero
  rw [if_congr hcond rfl rfl, if_neg hp, List.append_assoc]

/-- Helper: ECMAScript `Number` reads the canonical signed decimal string
of `k` scaled at two fractional digits back as `k / 100`. -/
theorem jsNumber_canonical (k : ℤ) (hk : k ≠ 0) :
    jsNumber ((if k < 0 then ['-'] else []) ++
      (natDigits (k.natAbs / 10 ^ 2) ++ '.' :: fracDigits k.natAbs 2)) =
      some ((k : ℚ) / qpow 2) := by
  have hip := natDigits_digits (k.natAbs / 10 ^ 2)
  have hipne := natDigits_ne_nil (k.natAbs / 10 ^ 2)
  have hfp := fracDigits_digits k.natAbs 2
  have hpos := jsNumberPos_decimal _ _ hip hipne hfp
  have hV : (digitsVal (natDigits (k.natAbs / 10 ^ 2)) : ℚ) +
      (digitsVal (fracDigits k.natAbs 2) : ℚ) / qpow (fracDigits k.natAbs 2).length =
      (k.natAbs : ℚ) / qpow 2 := by
    rw [digitsVal_natDigits, digitsVal_fracDigits, fracDigits_length _ _ (by norm_num)]
    have h0 : ((10 : ℚ) ^ 2) * ((k.natAbs / 10 ^ 2 : ℕ) : ℚ) +
        ((k.natAbs % 10 ^ 2 : ℕ) : ℚ) = (k.natAbs : ℚ) := by
      exact_mod_cast Nat.div_add_mod k.natAbs (10 ^ 2)
    rw [qpow]
    field_simp
    linarith [h0]
  by_cases h0 : k < 0
  · rw [if_pos h0, List.singleton_append]
    unfold jsNumber
    rw [if_neg (by simp), if_pos (by simp), List.tail_cons, hpos, Option.map_some']
    congr 1
    rw [hV]
    have habs : (k.natAbs : ℚ) = -(k : ℚ) := by
      rw [Int.cast_natAbs, Int.cast_abs]
      exact abs_of_neg (by exact_mod_cast h0)
    rw [habs]
    ring
  · rw [if_neg h0, List.nil_append]
    have hne : natDigits (k.natAbs / 10 ^ 2) ++ '.' :: fracDigits k.natAbs 2 ≠ [] := by
      intro hcontra
      exact hipne (List.append_eq_nil.mp hcontra).1
    have hhd : ¬ ((natDigits (k.natAbs / 10 ^ 2) ++
        '.' :: fracDigits k.natAbs 2).headD ' ' = '-') := by
      obtain ⟨h, t, he⟩ := List.exists_cons_of_ne_nil hipne
      rw [he, List.cons_append, List.headD_cons]
      exact (isDigit_ne h (hip h (by rw [he]; exact List.mem_cons_self _ _))).2.1
    unfold jsNumber
    rw [if_neg hne, if_neg hhd, hpos]
    congr 1
    rw [hV]
    have habs : (k.natAbs : ℚ) = (k : ℚ) := by
      rw [Int.cast_natAbs, Int.cast_abs]
      exact abs_of_nonneg (by exact_mod_cast not_lt.mp h0)
    rw [habs]

/-- Helper: the parser's string pipeline strips the separators and the
sign survives, on the canonical formatted string. -/
theorem parseStr_canonical (k : ℤ) (ip fp : List Char)
    (hip : ∀ c ∈ ip, c.isDigit = true) (hfp : ∀ c ∈ fp, c.isDigit = true) :
    parseStr '.' ((if k < 0 then ['-'] else []) ++ (groupStdGo ',' ip ++ '.' :: fp)) =
      (if k < 0 then ['-'] else []) ++ (ip ++ '.' :: fp) := by
  unfold parseStr
  have hnp : ∀ x ∈ (if k < 0 then ['-'] else ([] : List Char)) ++
      (groupStdGo ',' ip ++ '.' :: fp), x ≠ '(' := by
    intro x hx
    rcases List.mem_append.mp hx with h | h
    · by_cases h0 : k < 0
      · rw [if_pos h0] at h
        rw [List.mem_singleton.mp h]
        decide
      · rw [if_neg h0] at h
        exact absurd h (List.not_mem_nil x)
    · rcases List.mem_append.mp h with h | h
      · rcases groupStdGo_mem ',' ip x h with h2 | h2
        · exact (isDigit_ne x (hip x h2)).2.2.2.1
        · rw [h2]; decide
      · rcases List.mem_cons.mp h with h2 | h2
        · rw [h2]; decide
        · exact (isDigit_ne x (hfp x h2)).2.2.2.1
  rw [parenReplace_id _ hnp, List.filter_append, List.filter_append]
  have h1 : (if k < 0 then ['-'] else ([] : List Char)).filter (stripKeep '.') =
      (if k < 0 then ['-'] else []) := by
    by_cases h0 : k < 0
    · rw [if_pos h0]
      rfl
    · rw [if_neg h0]
      rfl
  have h2 : (groupStdGo ',' ip).filter (stripKeep '.') = ip := by
    rw [groupStdGo_filter ',' (stripKeep '.') (by decide), filter_keep_digits ip hip]
  have h3 : ('.' :: fp).filter (stripKeep '.') = '.' :: fp := by
    rw [List.filter_cons, if_pos (by decide : stripKeep '.' '.' = true),
      filter_keep_digits fp hfp]
  rw [h1, h2, h3, map_decimal_id]

/-- Helper: substituting into the default positive pattern. -/
theorem replaceFirst_pos_pattern (payload : List Char) :
    replaceFirst '#' payload (replaceFirst '!' [] ['!', '#']) = payload := by
  show replaceFirst '#' payload ['#'] = payload
  rw [replaceFirst, if_pos rfl, List.append_nil]

/-- Helper: substituting into the default negative pattern. -/
theorem replaceFirst_neg_pattern (payload : List Char) :
    replaceFirst '#' payload (replaceFirst '!' [] ['-', '!', '#']) = '-' :: payload := by
  show replaceFirst '#' payload ['-', '#'] = '-' :: payload
  rw [replaceFirst, if_neg (by decide), replaceFirst, if_pos rfl, List.append_nil]

/-- Helper: `format` of a default-configured Money Value constructed from
the exactly representable number `k / 100`: the optional sign, the grouped
integer digits and the two fractional digits. -/
theorem format_int_default (k : ℤ) (hk : k ≠ 0) :
    Currency.format (Currency.mkUser (CInput.num ((k : ℚ) / 100)) {}) none =
      some ((if k < 0 then ['-'] else []) ++
        (groupStdGo ',' (natDigits (k.natAbs / 10 ^ 2)) ++
          '.' :: fracDigits k.natAbs 2)) := by
  have hq100 : qpow ((mergeOpts ({} : POpts)).precision) = 100 := by
    show qpow 2 = 100
    norm_num [qpow]
  have hP : Currency.parseValR (CInput.num ((k : ℚ) / 100)) (mergeOpts {}) = k := by
    refine Currency.parseValR_of_raw _ _ k ?_
    rw [Currency.parseRaw_num, hq100]
    exact div_mul_cancel₀ _ (by norm_num)
  have hint : (Currency.mkUser (CInput.num ((k : ℚ) / 100)) {}).intValue = k := hP
  have hval : (Currency.mkUser (CInput.num ((k : ℚ) / 100)) {}).value = (k : ℚ) / 100 := by
    rw [mkUser_value, hP, hq100]
  have hkq : ((k : ℚ)) ≠ 0 := Int.cast_ne_zero.mpr hk
  have hvne : (Currency.mkUser (CInput.num ((k : ℚ) / 100)) {}).value ≠ 0 := by
    rw [hval]
    exact div_ne_zero hkq (by norm_num)
  have h1 : (Currency.mkUser (CInput.num ((k : ℚ) / 100)) {}).intValue ≠ 0 := by
    rw [hint]; exact hk
  have hinc : (Currency.mkUser (CInput.num ((k : ℚ) / 100)) {}).settings.increment =
      1 / (100 : ℚ) := by
    show (if (0 : ℚ) = 0 then 1 / qpow 2 else (0 : ℚ)) = 1 / 100
    rw [if_pos rfl]
    norm_num [qpow]
  have h2 : (Currency.mkUser (CInput.num ((k : ℚ) / 100)) {}).settings.increment ≠ 0 := by
    rw [hinc]; norm_num
  have h3 : (Currency.mkUser (CInput.num ((k : ℚ) / 100)) {}).precisionFactor ≠ 0 := by
    rw [mkUser_precisionFactor]; exact qpow_ne_zero _
  have hpf100 : (Currency.mkUser (CInput.num ((k : ℚ) / 100)) {}).precisionFactor =
      (100 : ℚ) := by
    rw [mkUser_precisionFactor, hq100]
  have hsp2 : (Currency.mkUser (CInput.num ((k : ℚ) / 100)) {}).settings.precision = 2 := rfl
  have hr : rounding ((k : ℚ) / 100) (1 / 100) = (k : ℚ) / qpow 2 := by
    unfold rounding
    rw [show ((k : ℚ) / 100) / (1 / 100) = ((k : ℚ)) from by field_simp, jsRound_intCast,
      qpow]
    push_cast
    ring
  have hts : Currency.toString (Currency.mkUser (CInput.num ((k : ℚ) / 100)) {}) =
      some (toFixedStr ((k : ℚ) / qpow 2) 2) := by
    rw [toString_some _ h1 h2 h3, hint, hpf100, hinc, hsp2, hr]
  have hdrop : dropLeadingMinus ((if k < 0 then ['-'] else []) ++
      (natDigits (k.natAbs / 10 ^ 2) ++ '.' :: fracDigits k.natAbs 2)) =
      natDigits (k.natAbs / 10 ^ 2) ++ '.' :: fracDigits k.natAbs 2 := by
    by_cases h0 : k < 0
    · rw [if_pos h0, List.singleton_append]
      exact dropLeadingMinus_minus _
    · rw [if_neg h0, List.nil_append]
      exact dropLeadingMinus_digits _ _ (natDigits_ne_nil _) (natDigits_digits _)
  have hsplitOn : splitOnChar '.'
      (natDigits (k.natAbs / 10 ^ 2) ++ '.' :: fracDigits k.natAbs 2) =
      [natDigits (k.natAbs / 10 ^ 2), fracDigits k.natAbs 2] := by
    rw [splitOnChar_append '.' _ _
        (fun x hx => (isDigit_ne x (natDigits_digits _ x hx)).1),
      splitOnChar_no '.' _
        (fun x hx => (isDigit_ne x (fracDigits_digits _ _ x hx)).1)]
  have hga : Currency.groupApply
      (Currency.mkUser (CInput.num ((k : ℚ) / 100)) {}).settings
      (natDigits (k.natAbs / 10 ^ 2)) =
      groupStdGo ',' (natDigits (k.natAbs / 10 ^ 2)) := by
    unfold Currency.groupApply
    rw [show (Currency.mkUser (CInput.num ((k : ℚ) / 100)) ({} : POpts)).settings.useVedic =
      false from rfl]
    rw [if_neg (by simp)]
    rfl
  have hdec : (Currency.mkUser (CInput.num ((k : ℚ) / 100)) ({} : POpts)).settings.decimal =
      '.' := rfl
  have hsym : (if (none : Option Bool).getD
      (Currency.mkUser (CInput.num ((k : ℚ) / 100)) ({} : POpts)).settings.formatWithSymbol
      then [(Currency.mkUser (CInput.num ((k : ℚ) / 100)) ({} : POpts)).settings.symbol]
      else []) = ([] : List Char) := rfl
  have hpat : (Currency.mkUser (CInput.num ((k : ℚ) / 100)) ({} : POpts)).settings.pattern =
      ['!', '#'] := rfl
  have hnpat : (Currency.mkUser
      (CInput.num ((k : ℚ) / 100)) ({} : POpts)).settings.negativePattern =
      ['-', '!', '#'] := rfl
  unfold Currency.format
  rw [if_pos hvne, hts]
  simp only [Option.getD_some]
  rw [toFixedStr_int_div k 2 (by norm_num), hdrop, hsplitOn]
  simp only [List.headD_cons]
  rw [show ([natDigits (k.natAbs / 10 ^ 2), fracDigits k.natAbs 2] :
      List (List Char)).get? 1 = some (fracDigits k.natAbs 2) from rfl]
  simp only [Option.elim_some]
  rw [hdec, hga, hsym, hval]
  by_cases h0 : k < 0
  · rw [if_neg (not_le.mpr (div_neg_of_neg_of_pos (by exact_mod_cast h0) (by norm_num))),
      hnpat, replaceFirst_neg_pattern, if_pos h0, List.singleton_append]
  · rw [if_pos (div_nonneg (by exact_mod_cast not_lt.mp h0) (by norm_num)),
      hpat, replaceFirst_pos_pattern, if_neg h0, List.nil_append]

/-- Helper: `format` under default formatting settings, given that
`toString` printed the exactly representable value `m / 100`. -/
theorem format_of_toString (c : Currency) (m : ℤ)
    (hts : Currency.toString c = some (toFixedStr ((m : ℚ) / qpow 2) 2))
    (hvne : c.value ≠ 0)
    (hsgn : (0 ≤ c.value) ↔ (0 ≤ m))
    (hdec : c.settings.decimal = '.')
    (hsep : c.settings.separator = ',')
    (hvv : c.settings.useVedic = false)
    (hfs : c.settings.formatWithSymbol = false)
    (hpat : c.settings.pattern = ['!', '#'])
    (hnpat : c.settings.negativePattern = ['-', '!', '#']) :
    Currency.format c none =
      some ((if m < 0 then ['-'] else []) ++
        (groupStdGo ',' (natDigits (m.natAbs / 10 ^ 2)) ++
          '.' :: fracDigits m.natAbs 2)) := by
  have hdrop : dropLeadingMinus ((if m < 0 then ['-'] else []) ++
      (natDigits (m.natAbs / 10 ^ 2) ++ '.' :: fracDigits m.natAbs 2)) =
      natDigits (m.natAbs / 10 ^ 2) ++ '.' :: fracDigits m.natAbs 2 := by
    by_cases h0 : m < 0
    · rw [if_pos h0, List.singleton_append]
      exact dropLeadingMinus_minus _
    · rw [if_neg h0, List.nil_append]
      exact dropLeadingMinus_digits _ _ (natDigits_ne_nil _) (natDigits_digits _)
  have hsplitOn : splitOnChar '.'
      (natDigits (m.natAbs / 10 ^ 2) ++ '.' :: fracDigits m.natAbs 2) =
      [natDigits (m.natAbs / 10 ^ 2), fracDigits m.natAbs 2] := by
    rw [splitOnChar_append '.' _ _
        (fun x hx => (isDigit_ne x (natDigits_digits _ x hx)).1),
      splitOnChar_no '.' _
        (fun x hx => (isDigit_ne x (fracDigits_digits _ _ x hx)).1)]
  have hga : Currency.groupApply c.settings (natDigits (m.natAbs / 10 ^ 2)) =
      groupStdGo ',' (natDigits (m.natAbs / 10 ^ 2)) := by
    unfold Currency.groupApply
    rw [hvv, if_neg (by simp), hsep]
  have hsym : (if (none : Option Bool).getD c.settings.formatWithSymbol
      then [c.settings.symbol] else []) = ([] : List Char) := by
    rw [if_neg (by rw [hfs]; simp)]
  unfold Currency.format
  rw [if_pos hvne, hts]
  simp only [Option.getD_some]
  rw [toFixedStr_int_div m 2 (by norm_num), hdrop, hsplitOn]
  simp only [List.headD_cons]
  rw [show ([natDigits (m.natAbs / 10 ^ 2), fracDigits m.natAbs 2] :
      List (List Char)).get? 1 = some (fracDigits m.natAbs 2) from rfl]
  simp only [Option.elim_some]
  rw [hdec, hga, hsym]
  by_cases h0 : m < 0
  · rw [if_neg (by rw [hsgn]; omega), hnpat, replaceFirst_neg_pattern, if_pos h0,
      List.singleton_append]
  · rw [if_pos (by rw [hsgn]; omega), hpat, replaceFirst_pos_pattern, if_neg h0,
      List.nil_append]

/-- C9 amended: round-trip for the default configuration — for every
nonzero `k`, formatting the Money Value `k/100` yields a string that
parses back to a Money Value of equal value. -/
theorem C9_round_trip (k : ℤ) (hk : k ≠ 0) :
    ∃ s, Currency.format (Currency.mkUser (CInput.num ((k : ℚ) / 100)) {}) none = some s ∧
      (Currency.mkUser (CInput.str s) {}).value =
        (Currency.mkUser (CInput.num ((k : ℚ) / 100)) {}).value := by
  refine ⟨_, format_int_default k hk, ?_⟩
  have hP2 : Currency.parseValR (CInput.str ((if k < 0 then ['-'] else []) ++
      (groupStdGo ',' (natDigits (k.natAbs / 10 ^ 2)) ++ '.' :: fracDigits k.natAbs 2)))
      (mergeOpts {}) = k := by
    refine Currency.parseValR_of_raw _ _ k ?_
    rw [parseRaw_str,
      show (mergeOpts ({} : POpts)).decimal = '.' from rfl,
      parseStr_canonical k _ _ (natDigits_digits _) (fracDigits_digits _ _),
      jsNumber_canonical k hk]
    simp only [Option.getD_some]
    rw [show qpow ((mergeOpts ({} : POpts)).precision) = qpow 2 from rfl]
    exact div_mul_cancel₀ _ (qpow_ne_zero 2)
  have hP1 : Currency.parseValR (CInput.num ((k : ℚ) / 100)) (mergeOpts {}) = k := by
    refine Currency.parseValR_of_raw _ _ k ?_
    rw [Currency.parseRaw_num,
      show qpow ((mergeOpts ({} : POpts)).precision) = 100 from by
        show qpow 2 = 100; norm_num [qpow]]
    exact div_mul_cancel₀ _ (by norm_num)
  rw [mkUser_value, mkUser_value, hP1, hP2]

/-- C9 witness: round-trip of the value `1234.56`. -/
theorem C9_round_trip_witness :
    ∃ s, Currency.format
        (Currency.mkUser (CInput.num (((123456 : ℤ) : ℚ) / 100)) {}) none = some s ∧
      (Currency.mkUser (CInput.str s) {}).value =
        (Currency.mkUser (CInput.num (((123456 : ℤ) : ℚ) / 100)) {}).value :=
  C9_round_trip 123456 (by norm_num)

/-- C9 counterexample: with the configuration `increment = 0.05` the value
`1.01` is exactly representable at precision 2, yet `format` renders the
increment-rounded string `"1.00"`, which parses back to value `1 ≠ 1.01`;
moreover the zero-valued default-configured Money Value produces no string
at all (`format` is undefined on it). -/
theorem C9_counterexample :
    Currency.format
      (Currency.mkUser (CInput.num (101 / 100)) {increment := some (1 / 20)}) none =
      some (String.toList "1.00") ∧
    (Currency.mkUser (CInput.str (String.toList "1.00")) {}).value = 1 ∧
    (Currency.mkUser (CInput.num (101 / 100)) {increment := some (1 / 20)}).value =
      101 / 100 ∧
    (1 : ℚ) ≠ 101 / 100 ∧
    Currency.format (Currency.mkUser (CInput.num 0) {}) none = none := by
  have hq2 : qpow ((mergeOpts ({increment := some (1 / 20)} : POpts)).precision) = 100 := by
    show qpow 2 = 100
    norm_num [qpow]
  have hP1 : Currency.parseValR (CInput.num (101 / 100))
      (mergeOpts {increment := some (1 / 20)}) = 101 := by
    refine Currency.parseValR_of_raw _ _ 101 ?_
    rw [Currency.parseRaw_num, hq2]
    norm_num
  have hval1 : (Currency.mkUser (CInput.num (101 / 100))
      {increment := some (1 / 20)}).value = 101 / 100 := by
    rw [mkUser_value, hP1, hq2]
    norm_num
  have h1 : (Currency.mkUser (CInput.num (101 / 100))
      {increment := some (1 / 20)}).intValue ≠ 0 := by
    rw [show (Currency.mkUser (CInput.num (101 / 100))
      {increment := some (1 / 20)}).intValue = 101 from hP1]
    decide
  have hinc1 : (Currency.mkUser (CInput.num (101 / 100))
      {increment := some (1 / 20)}).settings.increment = 1 / 20 := by
    show (if (1 / 20 : ℚ) = 0 then 1 / qpow 2 else (1 / 20 : ℚ)) = 1 / 20
    rw [if_neg (by norm_num)]
  have h2 : (Currency.mkUser (CInput.num (101 / 100))
      {increment := some (1 / 20)}).settings.increment ≠ 0 := by
    rw [hinc1]
    norm_num
  have h3 : (Currency.mkUser (CInput.num (101 / 100))
      {increment := some (1 / 20)}).precisionFactor ≠ 0 := by
    rw [mkUser_precisionFactor]
    exact qpow_ne_zero _
  have hpf1 : (Currency.mkUser (CInput.num (101 / 100))
      {increment := some (1 / 20)}).precisionFactor = (100 : ℚ) := by
    rw [mkUser_precisionFactor, hq2]
  have hsp1 : (Currency.mkUser (CInput.num (101 / 100))
      {increment := some (1 / 20)}).settings.precision = 2 := rfl
  have hr1 : rounding (((101 : ℤ) : ℚ) / 100) (1 / 20) = ((100 : ℤ) : ℚ) / qpow 2 := by
    unfold rounding
    rw [show (((101 : ℤ) : ℚ) / 100) / (1 / 20) = (101 / 5 : ℚ) from by norm_num,
      show jsRound (101 / 5 : ℚ) = 20 from by unfold jsRound; norm_num]
    push_cast [qpow]
    norm_num
  have hts1 : Currency.toString (Currency.mkUser (CInput.num (101 / 100))
      {increment := some (1 / 20)}) = some (toFixedStr (((100 : ℤ) : ℚ) / qpow 2) 2) := by
    rw [toString_some _ h1 h2 h3,
      show (Currency.mkUser (CInput.num (101 / 100))
        {increment := some (1 / 20)}).intValue = 101 from hP1, hpf1, hinc1, hsp1]
    rw [show (((101 : ℤ) : ℚ)) / 100 = (((101 : ℤ) : ℚ) / 100) from rfl, hr1]
  have hsgn1 : (0 ≤ (Currency.mkUser (CInput.num (101 / 100))
      {increment := some (1 / 20)}).value) ↔ (0 ≤ (100 : ℤ)) := by
    rw [hval1]
    constructor
    · intro _
      norm_num
    · intro _
      norm_num
  have hfmt := format_of_toString
    (Currency.mkUser (CInput.num (101 / 100)) {increment := some (1 / 20)}) 100
    hts1 (by rw [hval1]; norm_num) hsgn1 rfl rfl rfl rfl rfl rfl
  have hnd1 : natDigits ((100 : ℤ).natAbs / 10 ^ 2) = ['1'] := by
    rw [show ((100 : ℤ).natAbs / 10 ^ 2 : ℕ) = 1 from by norm_num]
    rw [natDigits, if_neg (by norm_num), natDigitsLE, dif_neg (by norm_num)]
    rw [show ((1 : ℕ) / 10 : ℕ) = 0 from by norm_num, natDigitsLE, dif_pos rfl]
    rw [show ((1 : ℕ) % 10 : ℕ) = 1 from by norm_num]
    rw [show digitChar 1 = '1' from by decide]
    rfl
  have hnd0 : natDigits 0 = ['0'] := rfl
  have hfd1 : fracDigits (100 : ℤ).natAbs 2 = ['0', '0'] := by
    unfold fracDigits
    rw [show ((100 : ℤ).natAbs % 10 ^ 2 : ℕ) = 0 from by norm_num, hnd0]
    rfl
  have hgrp : groupStdGo ',' ['1'] = ['1'] := by
    rw [groupStdGo, if_neg (by simp)]
    rfl
  refine ⟨?_, ?_, ?_, by norm_num, ?_⟩
  · rw [hfmt, hnd1, hfd1, hgrp, if_neg (by decide : ¬ (100 : ℤ) < 0)]
    rfl
  · have hps : parseStr '.' (String.toList "1.00") = ['1', '.', '0', '0'] := by decide
    have hjs : jsNumber ['1', '.', '0', '0'] = some 1 := by
      have h := jsNumberPos_decimal ['1'] ['0', '0'] (by decide) (by decide) (by decide)
      unfold jsNumber
      rw [if_neg (by decide), if_neg (by decide)]
      show jsNumberPos (['1'] ++ '.' :: ['0', '0']) = some 1
      rw [h, show digitsVal ['1'] = 1 from by decide,
        show digitsVal ['0', '0'] = 0 from by decide]
      norm_num [qpow]
    have hP2 : Currency.parseValR (CInput.str (String.toList "1.00")) (mergeOpts {}) =
        100 := by
      refine Currency.parseValR_of_raw _ _ 100 ?_
      rw [parseRaw_str, show (mergeOpts ({} : POpts)).decimal = '.' from rfl, hps, hjs]
      simp only [Option.getD_some]
      rw [show qpow ((mergeOpts ({} : POpts)).precision) = 100 from by
        show qpow 2 = 100; norm_num [qpow]]
      norm_num
    rw [mkUser_value, hP2,
      show qpow ((mergeOpts ({} : POpts)).precision) = 100 from by
        show qpow 2 = 100; norm_num [qpow]]
    norm_num
  · exact hval1
  · have hv0 : (Currency.mkUser (CInput.num 0) {}).value = 0 := by
      rw [mkUser_value,
        Currency.parseValR_of_raw _ _ 0 (by rw [Currency.parseRaw_num]; norm_num)]
      norm_num
    unfold Currency.format
    rw [hv0]
    simp
